import Mathlib

/-!
Verification of the VCD waveform parser and protocol decoders.

This file gives a shallow embedding of the parsing / decoding core of the
repository (the `parseVCD` signal-table builder with its vector-reconstruction
post-process, the point-in-time value query `getSignalValueAt` in both of its
variants, the `decodeUART` / `decodeSPI` / `decodeAvalon` protocol decoders and
the `binToHex` numeric formatter), together with theorems settling the frozen
claims about that core.

Conventions of the embedding:
* JS numbers that are always non-negative integers in the code are `Nat`.
* The fractional UART sample times `t0 + bitDurationTicks*(b+1.5)` are handled
  by measuring those query times in half-ticks (comparing `v.time > t` in the
  code is equivalent to comparing `2*v.time > 2*t`, and `2*t` is an integer).
* JS `Map` objects are association lists in insertion order, with the
  overwrite-in-place semantics of `Map.set` and key-filtering `Map.delete`.
* Floating point timescale arithmetic (`1e-9` etc.) is modelled with exact
  powers of ten; the rounding boundaries of the actual doubles are not hit by
  any value exercised here.
-/

namespace VCD

/-- One recorded change of a signal: `{ time, value }` in the source. -/
structure VCDEntry where
  time : Nat
  value : String
deriving Repr, DecidableEq

/-- `VCDSignal` of the source: identifier code, full name, kind tag, declared
width, and the ordered value history.  The TS union type `'wire' | 'reg'` is a
plain string at runtime and is embedded as `String`. -/
structure VCDSignal where
  id : String
  name : String
  type : String
  size : Nat
  values : List VCDEntry
deriving Repr, DecidableEq

/-- `DecodedEvent` of the source. -/
structure DecodedEvent where
  startTime : Nat
  endTime : Nat
  data : String
  label : String
deriving Repr, DecidableEq

/-! ## Point-Query primitive -/

/-- Loop body of the module-level `getSignalValueAt`: walk the history keeping
the last value whose time is `≤ time`, starting from the accumulator `a`. -/
def getValueAux (time : Nat) (a : String) : List VCDEntry → String
  | [] => a
  | v :: rest => if v.time > time then a else getValueAux time v.value rest

/-- The module-level `getSignalValueAt` (the one used by the decoders and by
vector reconstruction): `lastVal` starts as the unknown marker `"x"`. -/
def getSignalValueAt (signal : VCDSignal) (time : Nat) : String :=
  getValueAux time "x" signal.values

/-- The WaveformViewer-local variant of `getSignalValueAt`: identical loop, but
`lastVal` starts as the first recorded value when the history is non-empty. -/
def getSignalValueAtViewer (signal : VCDSignal) (time : Nat) : String :=
  match signal.values with
  | [] => "x"
  | v0 :: _ => getValueAux time v0.value signal.values

/-- Loop body of `getSignalValueAt` with the query time measured in
half-ticks: `v.time > t` of the source becomes `2*v.time > t2`.  This is how
the decoder's fractional sample times `t0 + bitDurationTicks*(b+1.5)` are
compared exactly. -/
def getValueHalfAux (t2 : Nat) (a : String) : List VCDEntry → String
  | [] => a
  | v :: rest => if 2 * v.time > t2 then a else getValueHalfAux t2 v.value rest

/-- `getSignalValueAt` at a query time of `t2 / 2` ticks. -/
def getSignalValueAtHalf (signal : VCDSignal) (t2 : Nat) : String :=
  getValueHalfAux t2 "x" signal.values

/-! ## Numeric formatting helpers -/

/-- Hex digit character, uppercase (as produced by
`toString(16).toUpperCase()`). -/
def hexDigitU (n : Nat) : Char :=
  if n < 10 then Char.ofNat (48 + n) else Char.ofNat (55 + n)

/-- Fuel-driven most-significant-first hex digit list of `n`. -/
def natHexDigitsAux : Nat → Nat → List Char
  | 0, _ => []
  | fuel + 1, n =>
    if n < 16 then [hexDigitU n]
    else natHexDigitsAux fuel (n / 16) ++ [hexDigitU (n % 16)]

/-- `n.toString(16).toUpperCase()` for a non-negative integer / BigInt `n`:
uppercase hexadecimal with no leading zeros (`0 ↦ "0"`). -/
def natToHexUpper (n : Nat) : String :=
  String.mk (natHexDigitsAux (n + 1) n)

/-- `padStart(2, '0')` of the source, for hex byte rendering. -/
def padStart2 (s : String) : String :=
  if s.length < 2 then "0" ++ s else s

/-- `byte.toString(16).toUpperCase().padStart(2, '0')`. -/
def byteHex (n : Nat) : String :=
  padStart2 (natToHexUpper n)

/-- Decimal digit character. -/
def natDigitChar (n : Nat) : Char := Char.ofNat (48 + n)

/-- Fuel-driven most-significant-first decimal digit list of `n`. -/
def natDigitsAux : Nat → Nat → List Char
  | 0, _ => []
  | fuel + 1, n =>
    if n < 10 then [natDigitChar n]
    else natDigitsAux fuel (n / 10) ++ [natDigitChar (n % 10)]

/-- Decimal digits of `n`, most significant first. -/
def natDigits (n : Nat) : List Char := natDigitsAux (n + 1) n

/-- JS number-to-string for a non-negative integer (used in template strings
such as the composite vector name). -/
def natToDec (n : Nat) : String := String.mk (natDigits n)

/-- Numeric value of a list of decimal digit characters. -/
def digitsToNat (ds : List Char) : Nat :=
  ds.foldl (fun a c => 10 * a + (c.toNat - 48)) 0

/-- ASCII `toUpperCase` of one character (the characters this is applied to in
the modelled code are all ASCII). -/
def jsToUpper (c : Char) : Char :=
  if 'a' ≤ c ∧ c ≤ 'z' then Char.ofNat (c.toNat - 32) else c

/-! ## binToHex -/

/-- Membership in the character class of the source regex
`/[uUxXzZwWl LhH-]/` (note: it contains a literal space between `l` and `L`,
and a literal `-` at the end). -/
def binClassChar (c : Char) : Bool :=
  c == 'u' || c == 'U' || c == 'x' || c == 'X' || c == 'z' || c == 'Z' ||
  c == 'w' || c == 'W' || c == 'l' || c == ' ' || c == 'L' || c == 'h' ||
  c == 'H' || c == '-'

/-- Unsigned value of a binary digit string (what `BigInt('0b' + bin)` returns
for the digit run; arbitrary precision, no truncation). -/
def binBitsVal (l : List Char) : Nat :=
  l.foldl (fun a c => 2 * a + (if c == '1' then 1 else 0)) 0

/-- Characters the ECMA StringToBigInt grammar accepts around the numeric
literal: WhiteSpace (TAB, VT, FF, SP, NBSP, ZWNBSP and the Space_Separator
category) and LineTerminator (LF, CR, LS, PS).  `BigInt('0b' + bin)`
therefore tolerates such characters at the end of `bin`; a leading one lands
between `0b` and the digits and is a SyntaxError. -/
def jsStrWhite (c : Char) : Bool :=
  c.val == 9 || c.val == 10 || c.val == 11 || c.val == 12 || c.val == 13 ||
  c.val == 32 || c.val == 160 || c.val == 0x1680 ||
  decide (0x2000 ≤ c.val ∧ c.val ≤ 0x200A) ||
  c.val == 0x2028 || c.val == 0x2029 || c.val == 0x202F || c.val == 0x205F ||
  c.val == 0x3000 || c.val == 0xFEFF

/-- `BigInt('0b' + bin)` per ECMA StringToBigInt
(`StrWhiteSpace_opt StrNumericLiteral StrWhiteSpace_opt`): the binary digits
must follow `0b` immediately and be non-empty, and after them only string
whitespace may appear; on success the value renders as uppercase hex
(`toString(16).toUpperCase()`), and the `catch` turns a SyntaxError into
`"X"`. -/
def binBigIntTry (l : List Char) : String :=
  if l.takeWhile (fun c => c == '0' || c == '1') ≠ [] ∧
      (l.drop (l.takeWhile (fun c => c == '0' || c == '1')).length).all jsStrWhite then
    natToHexUpper (binBitsVal (l.takeWhile (fun c => c == '0' || c == '1')))
  else "X"

/-- `binToHex` of the source.  Empty input gives `"X"`.  If some character is
in the regex class, an all-identical string renders as its first character
uppercased and anything else as `"X"`.  Otherwise `BigInt('0b' + bin)` is
attempted as in `binBigIntTry`. -/
def binToHex (bin : String) : String :=
  match bin.data with
  | [] => "X"
  | c :: cs =>
    if (c :: cs).any binClassChar then
      if cs.all (fun d => d == c) then String.singleton (jsToUpper c) else "X"
    else binBigIntTry (c :: cs)

/-! ## UART decoder -/

/-- A character in the JS `\w` class: `[A-Za-z0-9_]`. -/
def wordChar (c : Char) : Bool := c.isAlphanum || c == '_'

/-- First match of the source regex `/(\d+)\s*(\w+)/` over the characters of
the timescale string, returning (magnitude, unit).  Scanning is left to right;
at a digit run `D` the greedy engine yields `(D, U)` when a non-empty word-char
run `U` follows the whitespace after `D`, and otherwise backtracks one digit to
use it as the unit provided `D` has at least two digits. -/
def uartTsScan : List Char → Option (Nat × String)
  | [] => none
  | c :: rest =>
    if c.isDigit then
      let D := (c :: rest).takeWhile Char.isDigit
      let afterD := (c :: rest).drop D.length
      let W := afterD.takeWhile Char.isWhitespace
      let U := (afterD.drop W.length).takeWhile wordChar
      if U ≠ [] then some (digitsToNat D, String.mk U)
      else if 2 ≤ D.length then some (digitsToNat (D.dropLast), String.mk [D.getLastD '0'])
      else uartTsScan rest
    else uartTsScan rest

/-- Exponent `e` such that `units[unit] = 10^(-e)` in the decoder's unit map,
with the `|| 1e-9` default for unknown units. -/
def unitExp (u : String) : Nat :=
  if u = "s" then 0
  else if u = "ms" then 3
  else if u = "us" then 6
  else if u = "ns" then 9
  else if u = "ps" then 12
  else if u = "fs" then 15
  else 9

/-- `Math.round (p / q)` for non-negative reals given as an exact fraction
(`Math.round` rounds half away from zero, i.e. half up for positives). -/
def roundDiv (p q : Nat) : Nat := (2 * p + q) / (2 * q)

/-- `bitDurationTicks = Math.max(1, Math.round(1 / (baudRate * tickInSec)))`
with `tickInSec = val * 10^(-e)`: exactly `max 1 (round (10^e / (baudRate *
val)))`. -/
def uartBitTicks (baudRate val e : Nat) : Nat :=
  max 1 (roundDiv (10 ^ e) (baudRate * val))

/-- The value the UART decoder samples for data bit `b` of a frame whose start
bit is at `startTime`: `getSignalValueAt(signal, startTime +
bitDurationTicks*(b + 1.5))`, with the query time expressed in half-ticks. -/
def uartSampleVal (signal : VCDSignal) (bdt startTime b : Nat) : String :=
  getSignalValueAtHalf signal (2 * startTime + bdt * (2 * b + 3))

/-- JS truthiness of `parseInt(v)` for the sampled value string `v`: a leading
digit run parses to its value (`NaN` and `0` are falsy).  Sign prefixes never
occur in recorded values and are omitted. -/
def jsBitTruthy (v : String) : Bool :=
  match v.data.takeWhile Char.isDigit with
  | [] => false
  | ds => digitsToNat ds != 0

/-- The 8-bit sampling loop: samples bits `b, b+1, ...` (`n` of them), aborting
with `none` as soon as a sampled value is `'x'` or `'z'` (the `possible =
false; break` of the source). -/
def uartBitsFrom (signal : VCDSignal) (bdt startTime : Nat) : Nat → Nat → Option (List Bool)
  | 0, _ => some []
  | n + 1, b =>
    let v := uartSampleVal signal bdt startTime b
    if v = "x" ∨ v = "z" then none
    else
      match uartBitsFrom signal bdt startTime n (b + 1) with
      | none => none
      | some rest => some (jsBitTruthy v :: rest)

/-- LSB-first byte assembly: `if (dataBits[b]) byte |= (1 << b)` for b in
0..7. -/
def uartByteOf (bits : List Bool) : Nat :=
  (List.range 8).foldl (fun acc b => if bits.getD b false then acc + 2 ^ b else acc) 0

/-- The event label: the character itself when `String.fromCharCode(byte)`
matches `/[ -~]/` (printable ASCII, 0x20–0x7E), else `\xHH`. -/
def uartLabel (byte : Nat) : String :=
  if 32 ≤ byte ∧ byte ≤ 126 then String.singleton (Char.ofNat byte)
  else "\\x" ++ byteHex byte

/-- The decoded UART event for a frame starting at `startTime`. -/
def uartEvent (startTime bdt byte : Nat) : DecodedEvent :=
  { startTime := startTime
    endTime := startTime + bdt * 10
    data := "0x" ++ byteHex byte
    label := uartLabel byte }

/-- The post-event skip: `while (i < values.length && values[i].time <
nextTime) i++`, keeping track of the element before the new scan position. -/
def uartSkip (t : Nat) : VCDEntry → List VCDEntry → VCDEntry × List VCDEntry
  | prev, [] => (prev, [])
  | prev, c :: rest => if c.time < t then uartSkip t c rest else (prev, c :: rest)

/-- Main scan loop of `decodeUART` over consecutive history entries
(`prev = values[i-1]`, head of the list = `values[i]`).  Fuel only bounds the
iteration count; every branch consumes at least one list element, so fuel
`≥ length` never runs out (on a falling edge `curr.time < nextTime` always
holds, so the skip consumes `curr`). -/
def decodeUARTLoop (signal : VCDSignal) (bdt : Nat) : Nat → VCDEntry → List VCDEntry → List DecodedEvent
  | 0, _, _ => []
  | _, _, [] => []
  | fuel + 1, prev, curr :: rest =>
    if prev.value = "1" ∧ curr.value = "0" then
      match uartBitsFrom signal bdt curr.time 8 0 with
      | some bits =>
        let s := uartSkip (curr.time + bdt * 10) prev (curr :: rest)
        uartEvent curr.time bdt (uartByteOf bits) :: decodeUARTLoop signal bdt fuel s.1 s.2
      | none => decodeUARTLoop signal bdt fuel curr rest
    else decodeUARTLoop signal bdt fuel curr rest

/-- `decodeUART` with the bit duration already computed (the body after the
timescale conversion): returns `[]` for fewer than two recorded values, else
scans from `i = 1`. -/
def decodeUARTCore (signal : VCDSignal) (bdt : Nat) : List DecodedEvent :=
  match signal.values with
  | [] => []
  | [_] => []
  | v0 :: rest => decodeUARTLoop signal bdt (rest.length + 1) v0 rest

/-- `decodeUART(signal, baudRate, timescaleStr)`.  A timescale string the
regex does not match returns `[]`.  `baudRate * val = 0` would give an
infinite bit duration in JS (no finite frame can complete normally); it is
modelled as the empty event list and is not exercised by any claim. -/
def decodeUART (signal : VCDSignal) (baudRate : Nat) (timescaleStr : String) : List DecodedEvent :=
  match uartTsScan timescaleStr.data with
  | none => []
  | some (val, unit) =>
    if baudRate * val = 0 then []
    else decodeUARTCore signal (uartBitTicks baudRate val (unitExp unit))

/-! ## SPI decoder -/

/-- Bit accumulation state of the SPI loop (`byteStart = none` models
`byteStartTime === -1`). -/
structure SPIState where
  mosiBits : List Bool
  misoBits : List Bool
  byteStart : Option Nat
deriving Repr, DecidableEq

/-- Sampling-edge selection from (cpol, cpha) and the clock transition
`pv → cv`, exactly the nested conditionals of the source (`cpol === 0` etc.;
any non-zero value behaves like 1). -/
def spiIsSampleEdge (cpol cpha : Nat) (pv cv : String) : Bool :=
  let isRising := pv == "0" && cv == "1"
  let isFalling := pv == "1" && cv == "0"
  if cpol == 0 then (if cpha == 0 then isRising else isFalling)
  else (if cpha == 0 then isFalling else isRising)

/-- MSB-first byte assembly: `if (bits[b]) byte |= (1 << (7 - b))` for b in
0..7 (missing positions are falsy). -/
def spiByteOf (bits : List Bool) : Nat :=
  (List.range 8).foldl (fun acc b => if bits.getD b false then acc + 2 ^ (7 - b) else acc) 0

/-- The event emitted when an SPI byte completes. -/
def spiEvent (byteStart endTime mosiByte misoByte : Nat) : DecodedEvent :=
  { startTime := byteStart
    endTime := endTime
    data := "MOSI: 0x" ++ byteHex mosiByte ++ ", MISO: 0x" ++ byteHex misoByte
    label := "M:" ++ byteHex mosiByte ++ " S:" ++ byteHex misoByte }

/-- One sampled bit: `getSignalValueAt(line, t) === '1'`. -/
def spiSampleBit (line : VCDSignal) (t : Nat) : Bool :=
  getSignalValueAt line t == "1"

/-- `cs && getSignalValueAt(cs, t) !== '0'`: the chip-select line is supplied
and not in its active-low state. -/
def spiCsInactive (cs : Option VCDSignal) (t : Nat) : Bool :=
  match cs with
  | some c => getSignalValueAt c t != "0"
  | none => false

/-- State after one sampling edge at time `t`: `byteStartTime` is fixed at the
first sampled edge, and each supplied line appends one sampled bit. -/
def spiAccum (mosi miso : Option VCDSignal) (st : SPIState) (t : Nat) : SPIState :=
  { mosiBits := match mosi with
      | some m => st.mosiBits ++ [spiSampleBit m t]
      | none => st.mosiBits
    misoBits := match miso with
      | some m => st.misoBits ++ [spiSampleBit m t]
      | none => st.misoBits
    byteStart := some (st.byteStart.getD t) }

/-- Main loop of `decodeSPI` over consecutive SCLK entries.  On an edge with
chip-select inactive the accumulators reset; on a sampling edge the selected
lines are sampled and a byte is emitted when an accumulator reaches 8 bits
(`bs`, the start time of the event, is `byteStartTime` after its `=== -1`
initialization, i.e. `st.byteStart.getD curr.time`). -/
def spiLoop (mosi miso cs : Option VCDSignal) (cpol cpha : Nat) :
    SPIState → VCDEntry → List VCDEntry → List DecodedEvent
  | _, _, [] => []
  | st, prev, curr :: rest =>
    if spiCsInactive cs curr.time then
      spiLoop mosi miso cs cpol cpha ⟨[], [], none⟩ curr rest
    else if spiIsSampleEdge cpol cpha prev.value curr.value then
      if (spiAccum mosi miso st curr.time).mosiBits.length = 8 ∨
          (spiAccum mosi miso st curr.time).misoBits.length = 8 then
        spiEvent (st.byteStart.getD curr.time) curr.time
            (spiByteOf (spiAccum mosi miso st curr.time).mosiBits)
            (spiByteOf (spiAccum mosi miso st curr.time).misoBits) ::
          spiLoop mosi miso cs cpol cpha ⟨[], [], none⟩ curr rest
      else
        spiLoop mosi miso cs cpol cpha (spiAccum mosi miso st curr.time) curr rest
    else spiLoop mosi miso cs cpol cpha st curr rest

/-- `decodeSPI(sclk, mosi?, miso?, cs?, cpol, cpha)`.  The loop runs over SCLK
edges from `i = 1`. -/
def decodeSPI (sclk : VCDSignal) (mosi miso cs : Option VCDSignal) (cpol cpha : Nat) :
    List DecodedEvent :=
  match sclk.values with
  | [] => []
  | v0 :: rest => spiLoop mosi miso cs cpol cpha ⟨[], [], none⟩ v0 rest

/-- Replace every recorded value of a signal through `f` (keeping times). -/
def mapSigValues (f : String → String) (sig : VCDSignal) : VCDSignal :=
  { sig with values := sig.values.map (fun e => ⟨e.time, f e.value⟩) }

/-- The bit normalization the SPI sampler effectively applies: any value other
than `"1"` — including the unknown marker `"x"` and the high-impedance marker
`"z"` — counts as 0. -/
def spiBitNorm (v : String) : String := if v = "1" then "1" else "0"

/-! ## Avalon-MM decoder -/

/-- Times of the rising edges of a history, in order (`prev = values[i-1]`). -/
def risingTimes : VCDEntry → List VCDEntry → List Nat
  | _, [] => []
  | prev, curr :: rest =>
    if prev.value = "0" ∧ curr.value = "1" then curr.time :: risingTimes curr rest
    else risingTimes curr rest

/-- Clock period estimate of `decodeAvalon`: distance between the first two
rising edges (at least 1), defaulting to 1 when `values.length < 3` or when
fewer than two rising edges exist.  A negative JS difference would be clamped
to 1 by `Math.max`, exactly as truncated `Nat` subtraction is. -/
def avalonPeriod (clk : VCDSignal) : Nat :=
  if 3 ≤ clk.values.length then
    match clk.values with
    | v0 :: rest =>
      match risingTimes v0 rest with
      | t1 :: t2 :: _ => max 1 (t2 - t1)
      | _ => 1
    | [] => 1
  else 1

/-- `isWaiting`: the wait-request line is supplied and queries to `'1'`. -/
def avalonWaiting (waitrequest : Option VCDSignal) (t : Nat) : Bool :=
  match waitrequest with
  | some w => getSignalValueAt w t == "1"
  | none => false

/-- An optional line queries to `'1'` at `t`. -/
def lineActive (line : Option VCDSignal) (t : Nat) : Bool :=
  match line with
  | some s => getSignalValueAt s t == "1"
  | none => false

/-- The value string of an optional line at `t`, `'X'` when absent. -/
def lineValue (line : Option VCDSignal) (t : Nat) : String :=
  match line with
  | some s => getSignalValueAt s t
  | none => "X"

/-- The events one non-stalled rising edge contributes: WRITE, then READ
REQUEST, then READ DATA, each independently guarded. -/
def avalonEdgeEvents (address read write writedata readdata readdatavalid : Option VCDSignal)
    (period t : Nat) : List DecodedEvent :=
  (if lineActive write t then
    [{ startTime := t
       endTime := t + period
       data := "WRITE Addr: 0x" ++ binToHex (lineValue address t) ++ ", Data: 0x" ++
         binToHex (lineValue writedata t)
       label := "WR 0x" ++ binToHex (lineValue address t) }]
   else []) ++
  (if lineActive read t then
    [{ startTime := t
       endTime := t + period
       data := "READ REQ Addr: 0x" ++ binToHex (lineValue address t)
       label := "RD REQ 0x" ++ binToHex (lineValue address t) }]
   else []) ++
  (if lineActive readdatavalid t then
    [{ startTime := t
       endTime := t + period
       data := "READ DATA: 0x" ++ binToHex (lineValue readdata t)
       label := "RD DATA 0x" ++ binToHex (lineValue readdata t) }]
   else [])

/-- Main loop of `decodeAvalon` over consecutive CLK entries: non-rising edges
contribute nothing, a rising edge with wait-request active is skipped
entirely, and any other rising edge contributes its edge events. -/
def decodeAvalonLoop (address read write writedata readdata waitrequest readdatavalid :
    Option VCDSignal) (period : Nat) : VCDEntry → List VCDEntry → List DecodedEvent
  | _, [] => []
  | prev, curr :: rest =>
    if prev.value = "0" ∧ curr.value = "1" then
      if avalonWaiting waitrequest curr.time then
        decodeAvalonLoop address read write writedata readdata waitrequest readdatavalid period
          curr rest
      else
        avalonEdgeEvents address read write writedata readdata readdatavalid period curr.time ++
          decodeAvalonLoop address read write writedata readdata waitrequest readdatavalid period
            curr rest
    else
      decodeAvalonLoop address read write writedata readdata waitrequest readdatavalid period
        curr rest

/-- `decodeAvalon(clk, address?, read?, write?, writedata?, readdata?,
waitrequest?, readdatavalid?)`. -/
def decodeAvalon (clk : VCDSignal) (address read write writedata readdata waitrequest
    readdatavalid : Option VCDSignal) : List DecodedEvent :=
  if clk.values.length < 2 then []
  else
    match clk.values with
    | [] => []
    | v0 :: rest =>
      decodeAvalonLoop address read write writedata readdata waitrequest readdatavalid
        (avalonPeriod clk) v0 rest

/-! ## JS `Map` as an association list (insertion order preserved) -/

/-- `Map.get`. -/
def assocGet {α : Type} (m : List (String × α)) (k : String) : Option α :=
  (m.find? (fun p => p.1 == k)).map (fun p => p.2)

/-- `Map.set`: overwrite in place when the key exists, else append. -/
def assocSet {α : Type} (m : List (String × α)) (k : String) (v : α) : List (String × α) :=
  if m.any (fun p => p.1 == k) then
    m.map (fun p => if p.1 == k then (k, v) else p)
  else m ++ [(k, v)]

/-- `Map.delete`. -/
def assocDelete {α : Type} (m : List (String × α)) (k : String) : List (String × α) :=
  m.filter (fun p => p.1 != k)

/-- The signal table: the `signals` map of the source. -/
abbrev SignalTable := List (String × VCDSignal)

/-- One bit group of the reconstruction pass: base name and the inner
`Map<number, VCDSignal>`. -/
abbrev BitGroup := String × List (Nat × VCDSignal)

/-! ## Vector reconstruction (`parseVCD` post-process) -/

/-- `trim()` on a character list: strip leading and trailing whitespace. -/
def trimChars (l : List Char) : List Char :=
  ((l.dropWhile Char.isWhitespace).reverse.dropWhile Char.isWhitespace).reverse

/-- Worker for `bitNameMatch`, given the reversed character list of the name:
after the trailing `]` the maximal digit run must be non-empty and followed by
`[`, with at least one character before the bracket. -/
def bitNameMatchAux : List Char → Option (String × Nat)
  | [] => none
  | c :: rest =>
    if c = ']' then
      (match rest.drop (rest.takeWhile Char.isDigit).length with
       | d :: pre =>
         if d = '[' ∧ rest.takeWhile Char.isDigit ≠ [] ∧ pre ≠ [] then
           some (String.mk (trimChars pre.reverse),
             digitsToNat (rest.takeWhile Char.isDigit).reverse)
         else none
       | [] => none)
    else none

/-- Match of the source regex `/(.+?)\s*\[(\d+)\]$/` against a signal name:
the name must end in `[digits]` with at least one character before the
bracket; the captured base is everything before the bracket with surrounding
whitespace trimmed (`match[1].trim()` — the regex leaves at most trailing
whitespace in group 1, so trimming the whole prefix is the same string). -/
def bitNameMatch (name : String) : Option (String × Nat) :=
  bitNameMatchAux name.data.reverse

/-- `Map.set` on the inner bit-index map. -/
def innerSet (inner : List (Nat × VCDSignal)) (idx : Nat) (sig : VCDSignal) :
    List (Nat × VCDSignal) :=
  if inner.any (fun p => p.1 == idx) then
    inner.map (fun p => if p.1 == idx then (idx, sig) else p)
  else inner ++ [(idx, sig)]

/-- Insert one matched bit into the group map. -/
def groupsAdd (groups : List BitGroup) (base : String) (idx : Nat) (sig : VCDSignal) :
    List BitGroup :=
  if groups.any (fun g => g.1 == base) then
    groups.map (fun g => if g.1 == base then (base, innerSet g.2 idx sig) else g)
  else groups ++ [(base, [(idx, sig)])]

/-- One row of the grouping pass: a signal whose table key matches the bit
pattern and whose declared width is 1 joins its base's group. -/
def bgStep (groups : List BitGroup) (p : String × VCDSignal) : List BitGroup :=
  match bitNameMatch p.1 with
  | some bi => if p.2.size = 1 then groupsAdd groups bi.1 bi.2 p.2 else groups
  | none => groups

/-- First pass of the post-process: group the single-bit signals whose table
key matches the bit pattern, by base name, in table order. -/
def buildGroups (tbl : SignalTable) : List BitGroup :=
  tbl.foldl bgStep []

/-- `Math.max(...bits.keys())`. -/
def groupMax : List (Nat × VCDSignal) → Nat
  | [] => 0
  | p :: rest => rest.foldl (fun a q => max a q.1) p.1

/-- `Math.min(...bits.keys())`. -/
def groupMin : List (Nat × VCDSignal) → Nat
  | [] => 0
  | p :: rest => rest.foldl (fun a q => min a q.1) p.1

/-- Ascending insertion. -/
def insertAsc (n : Nat) : List Nat → List Nat
  | [] => [n]
  | m :: rest => if n ≤ m then n :: m :: rest else m :: insertAsc n rest

/-- `Array.from(set).sort((a, b) => a - b)`: ascending numeric sort. -/
def sortAsc (l : List Nat) : List Nat := l.foldr insertAsc []

/-- The deduplicated, ascending union of the transition times of a group
(`allTimes` collected into a `Set`, then sorted; on a duplicate-free
collection every dedup order yields the same sorted list). -/
def groupTimes (inner : List (Nat × VCDSignal)) : List Nat :=
  sortAsc ((inner.foldl (fun acc p => acc ++ p.2.values.map VCDEntry.time) []).dedup)

/-- Bit indices iterated most-significant first: `maxB, maxB-1, ..., minB`. -/
def downIdxs (maxB minB : Nat) : List Nat :=
  (List.range (maxB + 1 - minB)).map (fun j => maxB - j)

/-- The composite value string at one time: each position is the point query
of the constituent bit, or `'x'` for a gap in the index sequence. -/
def compositeValueAt (inner : List (Nat × VCDSignal)) (maxB minB t : Nat) : String :=
  (downIdxs maxB minB).foldl (fun s i =>
    match inner.lookup i with
    | some sig => s ++ getSignalValueAt sig t
    | none => s ++ "x") ""

/-- The synthetic multi-bit signal built for a group. -/
def mkComposite (base : String) (inner : List (Nat × VCDSignal)) : VCDSignal :=
  { id := "composite_" ++ base
    name := base ++ "[" ++ natToDec (groupMax inner) ++ ":" ++ natToDec (groupMin inner) ++ "]"
    type := "wire"
    size := groupMax inner - groupMin inner + 1
    values := (groupTimes inner).map
      (fun t => ⟨t, compositeValueAt inner (groupMax inner) (groupMin inner) t⟩) }

/-- `bits.forEach(sig => signals.delete(sig.name))`. -/
def fdel (l : List (Nat × VCDSignal)) (T : SignalTable) : SignalTable :=
  l.foldl (fun t p => assocDelete t p.2.name) T

/-- Second pass, one group: a group with more than one member inserts its
composite and then deletes the members (`signals.set` first, then
`bits.forEach(sig => signals.delete(sig.name))`); a singleton group changes
nothing. -/
def processGroup (tbl : SignalTable) (g : BitGroup) : SignalTable :=
  if 1 < g.2.length then
    fdel g.2 (assocSet tbl (mkComposite g.1 g.2).name (mkComposite g.1 g.2))
  else tbl

/-- The whole vector-reconstruction post-process over a signal table. -/
def vcdReconstruct (tbl : SignalTable) : SignalTable :=
  (buildGroups tbl).foldl processGroup tbl

/-! ## VCD parser -/

/-- `VCDData` of the source (the `signals` map carried as an ordered
association list). -/
structure VCDData where
  timescale : String
  signals : SignalTable
  maxTime : Nat
deriving Repr, DecidableEq

/-- Substring occurrence test (`content.indexOf(pat) !== -1`). -/
def hasSub (pat : List Char) : List Char → Bool
  | [] => pat.isEmpty
  | c :: rest => pat.isPrefixOf (c :: rest) || hasSub pat rest

/-- Split at the first occurrence of `pat`: `content.substring(0, idx)` and
`content.substring(idx + pat.length)`; `none` when `indexOf` is `-1`. -/
def splitAtSub (pat : List Char) : List Char → Option (List Char × List Char)
  | [] => if pat.isEmpty then some ([], []) else none
  | c :: rest =>
    if pat.isPrefixOf (c :: rest) then some ([], (c :: rest).drop pat.length)
    else
      match splitAtSub pat rest with
      | some (pre, post) => some (c :: pre, post)
      | none => none

/-- `line.split(/\s+/)` on an already-trimmed line: whitespace-run separated
tokens. -/
def splitWs (s : String) : List String :=
  (s.split Char.isWhitespace).filter (fun t => t ≠ "")

/-- `parseInt` of a string that should be a non-negative integer: leading
whitespace skipped, then a non-empty digit run, trailing characters ignored.
`NaN` (and the sign forms, which never occur in well-formed dumps) give
`none`. -/
def jsParseNat (s : String) : Option Nat :=
  match (s.data.dropWhile Char.isWhitespace).takeWhile Char.isDigit with
  | [] => none
  | ds => some (digitsToNat ds)

/-- A character of the class `[\d\s\w]` of the timescale regex. -/
def tsClass (c : Char) : Bool := wordChar c || c.isWhitespace

/-- Attempt the timescale regex right after one occurrence of `$timescale`:
the following maximal class run `R` must be followed by `$end` and admit the
decomposition `\s+ group \s+` (head and last whitespace, length ≥ 3); the
result after `match[1].trim().replace(/\s+/g, '')` is `R` with every
whitespace character removed. -/
def tsTryAt (t : List Char) : Option String :=
  let R := t.takeWhile tsClass
  if "$end".data.isPrefixOf (t.drop R.length) ∧ 3 ≤ R.length ∧
      (R.headD 'a').isWhitespace ∧ (R.getLastD 'a').isWhitespace then
    some (String.mk (R.filter (fun c => !c.isWhitespace)))
  else none

/-- Left-to-right scan for the first position where the whole timescale regex
matches (`$timescale` cannot overlap itself). -/
def tsScan : List Char → Option String
  | [] => none
  | c :: rest =>
    if "$timescale".data.isPrefixOf (c :: rest) then
      match tsTryAt ((c :: rest).drop 10) with
      | some s => some s
      | none => tsScan rest
    else tsScan rest

/-- Header-phase state.  The JS code aliases one `VCDSignal` object from both
the name-keyed and the id-keyed map and mutates it during the data phase; the
embedding keeps the objects in `store` and lets both maps hold indices into
it, which reproduces the aliasing (including a shadowed duplicate name still
being mutated through its id). -/
structure ParseState where
  store : List VCDSignal
  nameIdx : List (String × Nat)
  idIdx : List (String × Nat)
  scopeStack : List String
deriving Repr

/-- Process one trimmed, non-empty header line. -/
def headerLine (st : ParseState) (line : String) : ParseState :=
  if line.startsWith "$scope" then
    match (splitWs line).drop 2 with
    | name :: _ => { st with scopeStack := st.scopeStack ++ [name] }
    | [] => st
  else if line.startsWith "$upscope" then
    { st with scopeStack := st.scopeStack.dropLast }
  else if line.startsWith "$var" then
    let parts := splitWs line
    let type := (parts.drop 1).headD ""
    let size := (jsParseNat ((parts.drop 2).headD "")).getD 0
    let id := (parts.drop 3).headD ""
    let nameParts := ((parts.drop 4).takeWhile (fun t => t ≠ "$end"))
    let baseName := String.intercalate " " nameParts
    let fullName :=
      if st.scopeStack.length > 0 then String.intercalate "." st.scopeStack ++ "." ++ baseName
      else baseName
    let sig : VCDSignal := { id := id, name := fullName, type := type, size := size, values := [] }
    let i := st.store.length
    { st with
      store := st.store ++ [sig]
      nameIdx := assocSet st.nameIdx fullName i
      idIdx := assocSet st.idIdx id i }
  else st

/-- Append one value change to the signal object at index `i`. -/
def storePush (store : List VCDSignal) (i : Nat) (e : VCDEntry) : List VCDSignal :=
  match store.get? i with
  | some s => store.set i { s with values := s.values ++ [e] }
  | none => store

/-- Data-phase state: the signal store plus `currentTime` and `maxTime`. -/
structure DataState where
  store : List VCDSignal
  currentTime : Nat
  maxTime : Nat
deriving Repr

/-- Process one trimmed, non-empty data-region line.  A `#` line whose digits
do not parse leaves the time unchanged (the JS `NaN`/negative-time poisoning
of `currentTime` is not modelled; no claim exercises it). -/
def dataLine (idIdx : List (String × Nat)) (st : DataState) (line : String) : DataState :=
  if line.startsWith "#" then
    match jsParseNat (line.drop 1) with
    | some t => { st with currentTime := t, maxTime := max st.maxTime t }
    | none => st
  else if line.startsWith "$" then st
  else if line.startsWith "b" ∨ line.startsWith "B" then
    match splitWs line with
    | tok :: id :: _ =>
      (match assocGet idIdx id with
       | some i => { st with store := storePush st.store i ⟨st.currentTime, tok.drop 1⟩ }
       | none => st)
    | _ => st
  else
    match assocGet idIdx (line.drop 1) with
    | some i => { st with store := storePush st.store i ⟨st.currentTime, line.take 1⟩ }
    | none => st

/-- Trimmed, non-empty lines of a region. -/
def regionLines (s : List Char) : List String :=
  (((String.mk s).splitOn "\n").map String.trim).filter (fun l => l ≠ "")

/-- `parseVCD(content)`.  When no `$enddefinitions` marker exists the parse
returns the degenerate result `{ timescale: '1ns', signals: empty, maxTime:
0 }`; otherwise the header region builds the signal maps, the data region
appends value changes, and the vector-reconstruction post-process rewrites
the table. -/
def parseVCD (content : String) : VCDData :=
  match splitAtSub "$enddefinitions".data content.data with
  | none => { timescale := "1ns", signals := [], maxTime := 0 }
  | some (header, data) =>
    let timescale := (tsScan header).getD "1ns"
    let hst := (regionLines header).foldl headerLine ⟨[], [], [], []⟩
    let dst := (regionLines data).foldl (dataLine hst.idIdx) ⟨hst.store, 0, 0⟩
    let signals : SignalTable :=
      hst.nameIdx.filterMap (fun p => (dst.store.get? p.2).map (fun s => (p.1, s)))
    { timescale := timescale
      signals := vcdReconstruct signals
      maxTime := dst.maxTime }

/-! ## Derived descriptions used in the theorem statements -/

/-- The byte the UART frame starting at `t` denotes, read directly off the
sampled values, LSB first: bit `b` contributes `2^b` exactly when the decoder
samples `"1"` for it. -/
def uartSpecByte (sig : VCDSignal) (bdt t : Nat) : Nat :=
  (List.range 8).foldl (fun acc b => acc + (if uartSampleVal sig bdt t b = "1" then 2 ^ b else 0)) 0

/-- Name of the composite signal a group synthesizes. -/
def cname (g : BitGroup) : String := (mkComposite g.1 g.2).name

/-- Keys of an association list. -/
def keysOf {α : Type} (m : List (String × α)) : List String := m.map Prod.fst

/-! ## Concrete inputs for the scenario parts and witnesses -/

/-- A signal whose only recorded entry is at time 5 (for the point-query
before-first-entry behavior). -/
def c1Sig : VCDSignal := ⟨"!", "s", "wire", 1, [⟨5, "1"⟩]⟩

/-- The §8 point-query scenario history: `#0 0! #5 1! #10 0! #15 1!`. -/
def c2Clk : VCDSignal := ⟨"!", "clk", "wire", 1, [⟨0, "0"⟩, ⟨5, "1"⟩, ⟨10, "0"⟩, ⟨15, "1"⟩]⟩

/-- The §8 UART scenario line: idle high, start bit at t = 0, then the
LSB-first bits 10000010 of ASCII `'A'` at bit-period 104167 ticks (baud 9600,
timescale 1ns), stop bit high. -/
def uartSigW : VCDSignal :=
  ⟨"!", "rx", "wire", 1,
   [⟨0, "1"⟩, ⟨0, "0"⟩, ⟨104167, "1"⟩, ⟨208334, "0"⟩, ⟨729169, "1"⟩, ⟨833336, "0"⟩,
    ⟨937503, "1"⟩]⟩

/-- An SPI clock with 8 rising edges at times 10, 30, ..., 150. -/
def spiSclkW : VCDSignal :=
  ⟨"s", "sclk", "wire", 1, (List.range 16).map (fun i => ⟨10 * i, if i % 2 = 0 then "0" else "1"⟩)⟩

/-- MOSI carrying the MSB-first bits 10110010 (0xB2) on those 8 edges. -/
def spiMosiW : VCDSignal :=
  ⟨"m", "mosi", "wire", 1, [⟨0, "1"⟩, ⟨20, "0"⟩, ⟨40, "1"⟩, ⟨80, "0"⟩, ⟨120, "1"⟩, ⟨140, "0"⟩]⟩

/-- MOSI carrying 1,x,1,1,z,0,1,0 on those 8 edges: the unknown and
high-impedance samples land where 0-bits of 0xB2 sit. -/
def spiMosiXW : VCDSignal :=
  ⟨"m", "mosi", "wire", 1,
   [⟨0, "1"⟩, ⟨20, "x"⟩, ⟨40, "1"⟩, ⟨80, "z"⟩, ⟨100, "0"⟩, ⟨120, "1"⟩, ⟨140, "0"⟩]⟩

/-- An Avalon clock with one rising edge at t = 10. -/
def avClkW : VCDSignal := ⟨"c", "clk", "wire", 1, [⟨0, "0"⟩, ⟨10, "1"⟩]⟩

/-- A write-enable line held high. -/
def avWrW : VCDSignal := ⟨"w", "write", "wire", 1, [⟨0, "1"⟩]⟩

/-- A wait-request line held high. -/
def avWreqW : VCDSignal := ⟨"q", "waitrequest", "wire", 1, [⟨0, "1"⟩]⟩

/-- Bit 3 of the `data` vector (witness table). -/
def sigA : VCDSignal := ⟨"a", "data [3]", "wire", 1, [⟨0, "1"⟩]⟩

/-- Bit 1 of the `data` vector (witness table). -/
def sigB : VCDSignal := ⟨"b", "data [1]", "wire", 1, [⟨5, "0"⟩]⟩

/-- A lone indexed bit that must stay untouched (witness table). -/
def sigC : VCDSignal := ⟨"c", "solo [2]", "wire", 1, [⟨0, "1"⟩]⟩

/-- Witness signal table for the vector-reconstruction claims: one real group
(bits 3 and 1 of `data`, with a gap at bit 2) and one singleton group. -/
def tblW : SignalTable := [("data [3]", sigA), ("data [1]", sigB), ("solo [2]", sigC)]

/-- The `data` group as `buildGroups` produces it. -/
def gW : BitGroup := ("data", [(3, sigA), (1, sigB)])

/-- First declaration of bit 3 of `data` (key `data[3]`). -/
def s1d : VCDSignal := ⟨"a", "data[3]", "wire", 1, [⟨0, "1"⟩]⟩

/-- Second declaration of bit 3 of `data` (key `data [3]`, same base and
index after the regex match and trim). -/
def s2d : VCDSignal := ⟨"b", "data [3]", "wire", 1, [⟨2, "0"⟩]⟩

/-- First declaration of bit 1 of `data`. -/
def s3d : VCDSignal := ⟨"c", "data[1]", "wire", 1, [⟨4, "1"⟩]⟩

/-- Second declaration of bit 1 of `data`. -/
def s4d : VCDSignal := ⟨"d", "data [1]", "wire", 1, [⟨6, "0"⟩]⟩

/-- A table with two distinct signals per (base, index) pair: the inner
`Map.set` keeps only the later one of each pair, so the first pass deletes
only those and leaves `data[3]` and `data[1]` behind as mergeable bits. -/
def dupTbl : SignalTable :=
  [("data[3]", s1d), ("data [3]", s2d), ("data[1]", s3d), ("data [1]", s4d)]

/-! ## Point-query lemmas -/

theorem getValueAux_filter (t : Nat) :
    ∀ (l : List VCDEntry) (a : String),
      l.Pairwise (fun u v => u.time ≤ v.time) →
      getValueAux t a l =
        match (l.filter (fun v => v.time ≤ t)).getLast? with
        | none => a
        | some e => e.value := by
  intro l
  induction l with
  | nil => intro a _; simp [getValueAux]
  | cons v rest ih =>
    intro a hp
    rw [List.pairwise_cons] at hp
    obtain ⟨hv, hrest⟩ := hp
    by_cases hvt : v.time ≤ t
    · have hnot : ¬ v.time > t := by omega
      rw [getValueAux, if_neg hnot, ih v.value hrest,
        List.filter_cons_of_pos (by simpa using hvt)]
      cases hfr : (rest.filter (fun v => decide (v.time ≤ t))) with
      | nil => simp
      | cons x xs =>
        rw [List.getLast?_cons_cons]
        cases hgl : (x :: xs).getLast? with
        | none => simp at hgl
        | some e => simp
    · have hgt : v.time > t := by omega
      rw [getValueAux, if_pos hgt]
      have hfil : (v :: rest).filter (fun v => decide (v.time ≤ t)) = [] := by
        rw [List.filter_eq_nil_iff]
        intro e he
        rcases List.mem_cons.mp he with rfl | he'
        · simpa using hvt
        · have := hv e he'
          simp only [decide_eq_true_eq]
          omega
      rw [hfil]
      simp

/-- C2: when some recorded entry has time at most the query time, the
Point-Query primitive returns the value of the last recorded entry whose time
is at most the query time (histories are appended in non-decreasing time
order); in particular on the history `(0,0) (5,1) (10,0) (15,1)` the query at
time 7 returns 1, at time 0 returns 0, and at time 20 returns 1. -/
theorem vcd_C2 :
    (∀ (sig : VCDSignal) (t : Nat) (e : VCDEntry),
       sig.values.Pairwise (fun u v => u.time ≤ v.time) →
       (sig.values.filter (fun v => v.time ≤ t)).getLast? = some e →
       getSignalValueAt sig t = e.value)
    ∧ getSignalValueAt c2Clk 7 = "1" ∧ getSignalValueAt c2Clk 0 = "0"
    ∧ getSignalValueAt c2Clk 20 = "1" := by
  refine ⟨?_, by decide, by decide, by decide⟩
  intro sig t e hp hlast
  rw [getSignalValueAt, getValueAux_filter t sig.values "x" hp, hlast]

/-- C2 witness: the general part applied to the scenario history at time 7. -/
theorem vcd_C2_witness : getSignalValueAt c2Clk 7 = "1" :=
  vcd_C2.1 c2Clk 7 ⟨5, "1"⟩ (by decide) (by decide)

/-- C1 counterexample: a non-empty history whose first entry is at time 5,
queried at time 3 — the premises of the claim hold but the module-level
`getSignalValueAt` returns the unknown marker, not the first recorded
value. -/
theorem vcd_C1_counterexample :
    c1Sig.values ≠ [] ∧ 3 < (c1Sig.values.headD ⟨0, ""⟩).time ∧
    getSignalValueAt c1Sig 3 ≠ (c1Sig.values.headD ⟨0, ""⟩).value := by
  decide

/-- C1 (amended): for a query time strictly before the first recorded entry,
the module-level `getSignalValueAt` (the one the decoders and vector
reconstruction use) returns the unknown marker `x`, while the
WaveformViewer-local variant returns the first recorded value; on an empty
history both return `x`. -/
theorem vcd_C1_amended :
    (∀ (sig : VCDSignal) (t : Nat) (e : VCDEntry) (rest : List VCDEntry),
       sig.values = e :: rest → t < e.time →
       getSignalValueAt sig t = "x" ∧ getSignalValueAtViewer sig t = e.value)
    ∧ (∀ (sig : VCDSignal) (t : Nat), sig.values = [] →
       getSignalValueAt sig t = "x" ∧ getSignalValueAtViewer sig t = "x") := by
  constructor
  · intro sig t e rest hv ht
    constructor
    · rw [getSignalValueAt, hv, getValueAux, if_pos ht]
    · simp only [getSignalValueAtViewer, hv]
      rw [getValueAux, if_pos ht]
  · intro sig t hv
    constructor
    · rw [getSignalValueAt, hv, getValueAux]
    · simp only [getSignalValueAtViewer, hv]

/-- C1 witness: both variants evaluated at time 3 on the history whose first
entry is `(5, 1)`. -/
theorem vcd_C1_witness :
    getSignalValueAt c1Sig 3 = "x" ∧ getSignalValueAtViewer c1Sig 3 = "1" :=
  vcd_C1_amended.1 c1Sig 3 ⟨5, "1"⟩ [] rfl (by decide)

/-! ## binToHex -/

/-- C6 counterexample: `"aaaa"` consists of identical characters outside
{0,1}, yet `binToHex` returns `"X"` rather than the uppercased character
`"A"` — the identical-character rule only fires for the characters of the
regex class `[uUxXzZwWl LhH-]`. -/
theorem vcd_C6_counterexample :
    (∀ c ∈ "aaaa".data, c ≠ '0' ∧ c ≠ '1') ∧ (∀ c ∈ "aaaa".data, c = 'a') ∧
    binToHex "aaaa" = "X" ∧ ("X" : String) ≠ "A" := by
  decide

theorem takeWhile_append_all (p : Char → Bool) :
    ∀ (A l : List Char), (∀ a ∈ A, p a = true) →
      (A ++ l).takeWhile p = A ++ l.takeWhile p := by
  intro A l
  induction A with
  | nil => intro _; simp
  | cons a rest ih =>
    intro h
    rw [List.cons_append, List.takeWhile_cons, h a (List.mem_cons_self a rest), if_pos rfl,
      ih (fun b hb => h b (List.mem_cons_of_mem a hb)), List.cons_append]

theorem jsStrWhite_not_digit {w : Char} (h : jsStrWhite w = true) :
    (w == '0' || w == '1') = false := by
  by_cases h0 : w = '0'
  · subst h0; exact absurd h (by decide)
  · by_cases h1 : w = '1'
    · subst h1; exact absurd h (by decide)
    · simp [h0, h1]

/-- C6 (amended): the empty string maps to `X`; a string containing a
character of the simulator-state class `u/x/z/w/l/h` (either case), space or
`-` maps to its first character uppercased when all characters are identical
and to `X` otherwise; any other string goes through `BigInt('0b' + bin)`,
which succeeds exactly on a non-empty run of {0,1} digits followed by nothing
but string whitespace (a trailing newline or tab is accepted, per ECMA
StringToBigInt) and renders the digits' arbitrary-width unsigned value in
uppercase hexadecimal, everything else mapping to `X` through the caught
SyntaxError.  The 65-bit all-ones input shows there is no truncation to a
machine word, and `"01\n"` shows the trailing-whitespace acceptance. -/
theorem vcd_C6_amended :
    binToHex "" = "X"
    ∧ (∀ (s : String) (c : Char) (cs : List Char), s.data = c :: cs →
        ((c :: cs).any binClassChar = true →
          ((cs.all (fun d => d == c) = true → binToHex s = String.singleton (jsToUpper c))
           ∧ (cs.all (fun d => d == c) = false → binToHex s = "X")))
        ∧ ((c :: cs).any binClassChar = false →
          ((∀ (D W : List Char), c :: cs = D ++ W → D ≠ [] →
              (∀ d ∈ D, d = '0' ∨ d = '1') → (∀ w ∈ W, jsStrWhite w = true) →
              binToHex s = natToHexUpper (binBitsVal D))
           ∧ (((c :: cs).takeWhile (fun d => d == '0' || d == '1') = []
               ∨ ((c :: cs).drop
                    ((c :: cs).takeWhile (fun d => d == '0' || d == '1')).length).all jsStrWhite
                   = false) →
              binToHex s = "X"))))
    ∧ binToHex "0000" = "0" ∧ binToHex "1111" = "F" ∧ binToHex "xxxx" = "X"
    ∧ binToHex "01xz" = "X" ∧ binToHex "aaaa" = "X" ∧ binToHex "01\n" = "1"
    ∧ binToHex "0\n1" = "X"
    ∧ binToHex (String.mk (List.replicate 65 '1')) = natToHexUpper (2 ^ 65 - 1) := by
  refine ⟨by decide, ?_, by decide, by decide, by decide, by decide, by decide, by decide,
    by decide, by decide⟩
  intro s c cs hs
  constructor
  · intro hany
    constructor
    · intro hall; simp [binToHex, hs, hany, hall]
    · intro hall; simp [binToHex, hs, hany, hall]
  · intro hany
    constructor
    · intro D W hsplit hD hdig hws
      have hp : ∀ d ∈ D, (d == '0' || d == '1') = true := by
        intro d hd
        rcases hdig d hd with rfl | rfl <;> rfl
      have htw : (c :: cs).takeWhile (fun d => d == '0' || d == '1') = D := by
        rw [hsplit, takeWhile_append_all _ D W hp]
        cases W with
        | nil => simp
        | cons w ws =>
          rw [List.takeWhile_cons, jsStrWhite_not_digit (hws w (List.mem_cons_self w ws))]
          simp
      have hdrop : (c :: cs).drop
          ((c :: cs).takeWhile (fun d => d == '0' || d == '1')).length = W := by
        rw [htw, hsplit, List.drop_left]
      simp only [binToHex, hs]
      rw [if_neg (by simp [hany])]
      simp only [binBigIntTry]
      rw [htw] at hdrop
      rw [htw, hdrop, if_pos ⟨hD, List.all_eq_true.mpr hws⟩]
    · intro hfail
      simp only [binToHex, hs]
      rw [if_neg (by simp [hany])]
      simp only [binBigIntTry]
      rcases hfail with hfail | hfail
      · rw [if_neg]
        rintro ⟨hcon, -⟩
        exact hcon hfail
      · rw [if_neg]
        rintro ⟨-, hcon⟩
        rw [hfail] at hcon
        simp at hcon

/-- C6 witness: the BigInt branch applied to `"01\n"` — digits `01`, one
trailing line feed, value 1. -/
theorem vcd_C6_witness : binToHex "01\n" = natToHexUpper (binBitsVal ['0', '1']) :=
  ((vcd_C6_amended.2.1 "01\n" '0' ['1', '\n'] rfl).2 (by decide)).1 ['0', '1'] ['\n']
    rfl (by decide) (by decide) (by decide)

/-! ## Parser degenerate result -/

theorem hasSub_splitAtSub : ∀ (pat l : List Char),
    hasSub pat l = false → splitAtSub pat l = none := by
  intro pat l
  induction l with
  | nil =>
    intro h
    simp only [hasSub] at h
    simp [splitAtSub, h]
  | cons c rest ih =>
    intro h
    simp only [hasSub, Bool.or_eq_false_iff] at h
    simp [splitAtSub, h.1, ih h.2]

/-- C9: an input with no `$enddefinitions` marker parses (totally, with no
error) to the degenerate result: empty signal table, default timescale
`1ns`, maxTime 0. -/
theorem vcd_C9 : ∀ content : String,
    hasSub "$enddefinitions".data content.data = false →
    parseVCD content = ⟨"1ns", [], 0⟩ := by
  intro content h
  unfold parseVCD
  rw [hasSub_splitAtSub _ _ h]

/-- C9 witness: a concrete marker-free input. -/
theorem vcd_C9_witness : parseVCD "hello world, just text" = ⟨"1ns", [], 0⟩ :=
  vcd_C9 "hello world, just text" (by decide)

/-! ## Avalon: wait-request suppression -/

/-- C5: on a rising clock edge at which a supplied wait-request line queries
to 1, the Avalon decode loop skips the edge entirely — no WRITE, READ-REQUEST
or READ-DATA event, whatever the other lines do; and the §8 scenario: a
wait-request held high across an edge with write-enable high yields no events,
while the same input without the wait-request line does decode a WRITE. -/
theorem vcd_C5 :
    (∀ (address read write writedata readdata readdatavalid : Option VCDSignal) (w : VCDSignal)
       (period : Nat) (prev curr : VCDEntry) (rest : List VCDEntry),
       prev.value = "0" → curr.value = "1" → getSignalValueAt w curr.time = "1" →
       decodeAvalonLoop address read write writedata readdata (some w) readdatavalid period prev
           (curr :: rest)
         = decodeAvalonLoop address read write writedata readdata (some w) readdatavalid period
             curr rest)
    ∧ decodeAvalon avClkW none none (some avWrW) none none (some avWreqW) none = []
    ∧ lineActive (some avWrW) 10 = true
    ∧ decodeAvalon avClkW none none (some avWrW) none none none none ≠ [] := by
  refine ⟨?_, by decide, by decide, by decide⟩
  intro address read write writedata readdata readdatavalid w period prev curr rest h0 h1 hw
  have hwait : avalonWaiting (some w) curr.time = true := by
    simp [avalonWaiting, hw]
  rw [decodeAvalonLoop, if_pos ⟨h0, h1⟩]
  simp [hwait]

/-- C5 witness: the skip equation at the concrete stalled edge. -/
theorem vcd_C5_witness :
    decodeAvalonLoop none none (some avWrW) none none (some avWreqW) none 1 ⟨0, "0"⟩ [⟨10, "1"⟩]
      = decodeAvalonLoop none none (some avWrW) none none (some avWreqW) none 1 ⟨10, "1"⟩ [] :=
  vcd_C5.1 none none (some avWrW) none none none avWreqW 1 ⟨0, "0"⟩ ⟨10, "1"⟩ [] rfl rfl
    (by decide)

/-! ## SPI: sampling-edge selection and MSB-first assembly -/

theorem spiLoop_congrEdge (mosi miso cs : Option VCDSignal) (cpol cpha cpol' cpha' : Nat)
    (h : ∀ pv cv, spiIsSampleEdge cpol cpha pv cv = spiIsSampleEdge cpol' cpha' pv cv) :
    ∀ (l : List VCDEntry) (st : SPIState) (prev : VCDEntry),
      spiLoop mosi miso cs cpol cpha st prev l = spiLoop mosi miso cs cpol' cpha' st prev l := by
  intro l
  induction l with
  | nil => intro st prev; rfl
  | cons curr rest ih =>
    intro st prev
    rw [spiLoop, spiLoop, h prev.value curr.value]
    by_cases hcs : spiCsInactive cs curr.time = true
    · rw [if_pos hcs, if_pos hcs, ih]
    · rw [if_neg hcs, if_neg hcs]
      by_cases hedge : spiIsSampleEdge cpol' cpha' prev.value curr.value = true
      · rw [if_pos hedge, if_pos hedge]
        by_cases hlen : (spiAccum mosi miso st curr.time).mosiBits.length = 8 ∨
            (spiAccum mosi miso st curr.time).misoBits.length = 8
        · rw [if_pos hlen, if_pos hlen, ih]
        · rw [if_neg hlen, if_neg hlen, ih]
      · rw [if_neg hedge, if_neg hedge, ih]

/-- C4: `(cpol, cpha)` fixes one sampling-edge polarity for the whole run —
(0,0) and (1,1) sample exactly the rising edges, (0,1) and (1,0) exactly the
falling edges, so the paired configurations produce identical decodes on all
inputs — and bits are assembled MSB-first: the §8 scenario of 8 rising edges
carrying MOSI bits 10110010 under cpol=0, cpha=0 yields exactly one event
whose MOSI byte is 0xB2. -/
theorem vcd_C4 :
    (∀ pv cv, spiIsSampleEdge 0 0 pv cv = (pv == "0" && cv == "1")
       ∧ spiIsSampleEdge 1 1 pv cv = (pv == "0" && cv == "1")
       ∧ spiIsSampleEdge 0 1 pv cv = (pv == "1" && cv == "0")
       ∧ spiIsSampleEdge 1 0 pv cv = (pv == "1" && cv == "0"))
    ∧ (∀ (sclk : VCDSignal) (mosi miso cs : Option VCDSignal),
        decodeSPI sclk mosi miso cs 0 0 = decodeSPI sclk mosi miso cs 1 1
        ∧ decodeSPI sclk mosi miso cs 0 1 = decodeSPI sclk mosi miso cs 1 0)
    ∧ spiByteOf [true, false, true, true, false, false, true, false] = 0xB2
    ∧ decodeSPI spiSclkW (some spiMosiW) none none 0 0
        = [⟨10, 150, "MOSI: 0xB2, MISO: 0x00", "M:B2 S:00"⟩] := by
  refine ⟨fun pv cv => ⟨rfl, rfl, rfl, rfl⟩, ?_, by decide, by decide⟩
  intro sclk mosi miso cs
  constructor
  · unfold decodeSPI
    cases sclk.values with
    | nil => rfl
    | cons v0 rest => exact spiLoop_congrEdge mosi miso cs 0 0 1 1 (fun pv cv => rfl) rest _ v0
  · unfold decodeSPI
    cases sclk.values with
    | nil => rfl
    | cons v0 rest => exact spiLoop_congrEdge mosi miso cs 0 1 1 0 (fun pv cv => rfl) rest _ v0

/-! ## SPI: unknown samples count as 0 and never abort -/

theorem getValueAux_norm (t : Nat) :
    ∀ (l : List VCDEntry) (a b : String), (a = "1" ↔ b = "1") →
      ((getValueAux t a (l.map (fun e => ⟨e.time, spiBitNorm e.value⟩)) = "1")
        ↔ (getValueAux t b l = "1")) := by
  intro l
  induction l with
  | nil => intro a b h; simpa [getValueAux] using h
  | cons v rest ih =>
    intro a b h
    simp only [List.map_cons, getValueAux]
    by_cases hvt : v.time > t
    · rw [if_pos hvt, if_pos hvt]; exact h
    · rw [if_neg hvt, if_neg hvt]
      apply ih
      unfold spiBitNorm
      by_cases hv : v.value = "1"
      · simp [hv]
      · simp [hv]

theorem spiSampleBit_norm (m : VCDSignal) (t : Nat) :
    spiSampleBit (mapSigValues spiBitNorm m) t = spiSampleBit m t := by
  have h := getValueAux_norm t m.values "x" "x" Iff.rfl
  simp only [spiSampleBit, getSignalValueAt, mapSigValues]
  rw [Bool.eq_iff_iff]
  simpa using h

theorem spiAccum_norm (mosi miso : Option VCDSignal) (st : SPIState) (t : Nat) :
    spiAccum (mosi.map (mapSigValues spiBitNorm)) (miso.map (mapSigValues spiBitNorm)) st t
      = spiAccum mosi miso st t := by
  cases mosi <;> cases miso <;> simp [spiAccum, spiSampleBit_norm]

theorem spiLoop_norm (mosi miso cs : Option VCDSignal) (cpol cpha : Nat) :
    ∀ (l : List VCDEntry) (st : SPIState) (prev : VCDEntry),
      spiLoop (mosi.map (mapSigValues spiBitNorm)) (miso.map (mapSigValues spiBitNorm)) cs
          cpol cpha st prev l
        = spiLoop mosi miso cs cpol cpha st prev l := by
  intro l
  induction l with
  | nil => intro st prev; rfl
  | cons curr rest ih =>
    intro st prev
    rw [spiLoop, spiLoop, spiAccum_norm]
    by_cases hcs : spiCsInactive cs curr.time = true
    · rw [if_pos hcs, if_pos hcs, ih]
    · rw [if_neg hcs, if_neg hcs]
      by_cases hedge : spiIsSampleEdge cpol cpha prev.value curr.value = true
      · rw [if_pos hedge, if_pos hedge]
        by_cases hlen : (spiAccum mosi miso st curr.time).mosiBits.length = 8 ∨
            (spiAccum mosi miso st curr.time).misoBits.length = 8
        · rw [if_pos hlen, if_pos hlen, ih]
        · rw [if_neg hlen, if_neg hlen, ih]
      · rw [if_neg hedge, if_neg hedge, ih]

/-- C10: the SPI sampler maps every sampled MOSI/MISO value other than `"1"`
— including `"x"` and `"z"` — to bit 0 and keeps accumulating: normalizing
all recorded values through `v ↦ (if v = "1" then "1" else "0")` never changes
a decode, and the concrete run whose MOSI samples are 1,x,1,1,z,0,1,0 still
emits its byte, as 0xB2 (the unknown positions read as 0). -/
theorem vcd_C10 :
    (∀ (sclk : VCDSignal) (mosi miso cs : Option VCDSignal) (cpol cpha : Nat),
       decodeSPI sclk (mosi.map (mapSigValues spiBitNorm)) (miso.map (mapSigValues spiBitNorm))
           cs cpol cpha
         = decodeSPI sclk mosi miso cs cpol cpha)
    ∧ spiBitNorm "x" = "0" ∧ spiBitNorm "z" = "0"
    ∧ decodeSPI spiSclkW (some spiMosiXW) none none 0 0
        = [⟨10, 150, "MOSI: 0xB2, MISO: 0x00", "M:B2 S:00"⟩] := by
  refine ⟨?_, by decide, by decide, by decide⟩
  intro sclk mosi miso cs cpol cpha
  unfold decodeSPI
  cases sclk.values with
  | nil => rfl
  | cons v0 rest => exact spiLoop_norm mosi miso cs cpol cpha rest _ v0

/-! ## UART: start-bit candidates -/

theorem uartBitsFrom_known (sig : VCDSignal) (bdt st : Nat) :
    ∀ (n b : Nat),
      (∀ k, b ≤ k → k < b + n →
        uartSampleVal sig bdt st k = "0" ∨ uartSampleVal sig bdt st k = "1") →
      uartBitsFrom sig bdt st n b
        = some ((List.range n).map (fun j => jsBitTruthy (uartSampleVal sig bdt st (b + j)))) := by
  intro n
  induction n with
  | zero => intro b _; rfl
  | succ n ih =>
    intro b h
    have hb : uartSampleVal sig bdt st b = "0" ∨ uartSampleVal sig bdt st b = "1" :=
      h b le_rfl (by omega)
    have hxz : ¬ (uartSampleVal sig bdt st b = "x" ∨ uartSampleVal sig bdt st b = "z") := by
      rcases hb with hb | hb <;> rw [hb] <;> decide
    rw [uartBitsFrom, if_neg hxz, ih (b + 1) (fun k hk1 hk2 => h k (by omega) (by omega))]
    have hlist : (List.range (n + 1)).map (fun j => jsBitTruthy (uartSampleVal sig bdt st (b + j)))
        = jsBitTruthy (uartSampleVal sig bdt st b) ::
            (List.range n).map (fun j => jsBitTruthy (uartSampleVal sig bdt st (b + 1 + j))) := by
      rw [List.range_succ_eq_map, List.map_cons, List.map_map]
      congr 1
      apply List.map_congr_left
      intro j _
      simp only [Function.comp]
      congr 2
      omega
    rw [hlist]

theorem uartBitsFrom_unknown (sig : VCDSignal) (bdt st : Nat) :
    ∀ (n b k : Nat), b ≤ k → k < b + n →
      (uartSampleVal sig bdt st k = "x" ∨ uartSampleVal sig bdt st k = "z") →
      uartBitsFrom sig bdt st n b = none := by
  intro n
  induction n with
  | zero => intro b k h1 h2; omega
  | succ n ih =>
    intro b k h1 h2 hxz
    rcases eq_or_lt_of_le h1 with rfl | hlt
    · rw [uartBitsFrom, if_pos hxz]
    · by_cases hb : uartSampleVal sig bdt st b = "x" ∨ uartSampleVal sig bdt st b = "z"
      · rw [uartBitsFrom, if_pos hb]
      · rw [uartBitsFrom, if_neg hb, ih (b + 1) k (by omega) (by omega) hxz]

theorem uartByteOf_spec (sig : VCDSignal) (bdt st : Nat)
    (h : ∀ k, k < 8 → uartSampleVal sig bdt st k = "0" ∨ uartSampleVal sig bdt st k = "1") :
    uartByteOf ((List.range 8).map (fun j => jsBitTruthy (uartSampleVal sig bdt st j)))
      = uartSpecByte sig bdt st := by
  rw [uartByteOf, uartSpecByte]
  apply List.foldl_ext
  intro acc b hb
  rw [List.mem_range] at hb
  have hget : ((List.range 8).map (fun j => jsBitTruthy (uartSampleVal sig bdt st j))).getD b false
      = jsBitTruthy (uartSampleVal sig bdt st b) := by
    rw [List.getD_eq_getElem?_getD, List.getElem?_map, List.getElem?_range hb]
    rfl
  rw [hget]
  rcases h b hb with hv | hv <;> rw [hv] <;> simp [jsBitTruthy, digitsToNat]

/-- C3: on a recorded 1→0 transition at `t0` the UART decoder samples the 8
data bits at `t0 + bitDurationTicks*(b + 1.5)`; when every sampled value is 0
or 1 it emits exactly one event spanning `[t0, t0 + bitDurationTicks*10]`
whose data is the LSB-first byte in hex and whose label is the printable
character or the escaped hex form, and continues past the skip position; when
some sampled value is the unknown or high-impedance marker it emits nothing
for this candidate and resumes from the next recorded transition.  The §8
scenario (baud 9600, timescale 1ns, bits 10000010 LSB-first after a start bit
at t = 0) decodes to exactly one event with data 0x41 and label A. -/
theorem vcd_C3 :
    (∀ (sig : VCDSignal) (bdt fuel : Nat) (prev curr : VCDEntry) (rest : List VCDEntry),
      prev.value = "1" → curr.value = "0" →
      ((∀ b, b < 8 →
          uartSampleVal sig bdt curr.time b = "0" ∨ uartSampleVal sig bdt curr.time b = "1") →
        decodeUARTLoop sig bdt (fuel + 1) prev (curr :: rest)
          = uartEvent curr.time bdt (uartSpecByte sig bdt curr.time) ::
              decodeUARTLoop sig bdt fuel (uartSkip (curr.time + bdt * 10) prev (curr :: rest)).1
                (uartSkip (curr.time + bdt * 10) prev (curr :: rest)).2)
      ∧ ((∃ b, b < 8 ∧
            (uartSampleVal sig bdt curr.time b = "x" ∨ uartSampleVal sig bdt curr.time b = "z")) →
        decodeUARTLoop sig bdt (fuel + 1) prev (curr :: rest)
          = decodeUARTLoop sig bdt fuel curr rest))
    ∧ decodeUART uartSigW 9600 "1ns" = [⟨0, 1041670, "0x41", "A"⟩]
    ∧ uartEvent 0 104167 65 = ⟨0, 1041670, "0x41", "A"⟩ := by
  refine ⟨?_, by decide, by decide⟩
  intro sig bdt fuel prev curr rest h1 h0
  constructor
  · intro hknown
    rw [decodeUARTLoop, if_pos ⟨h1, h0⟩,
      uartBitsFrom_known sig bdt curr.time 8 0 (fun k hk1 hk2 => hknown k (by omega))]
    have hmap : (List.range 8).map (fun j => jsBitTruthy (uartSampleVal sig bdt curr.time (0 + j)))
        = (List.range 8).map (fun j => jsBitTruthy (uartSampleVal sig bdt curr.time j)) := by
      apply List.map_congr_left
      intro j _
      rw [Nat.zero_add]
    rw [hmap]
    simp only [uartByteOf_spec sig bdt curr.time hknown]
  · intro hunknown
    obtain ⟨b, hb, hxz⟩ := hunknown
    rw [decodeUARTLoop, if_pos ⟨h1, h0⟩,
      uartBitsFrom_unknown sig bdt curr.time 8 0 b (by omega) (by omega) hxz]

/-- C3 witness: the success branch applied at the scenario's start bit. -/
theorem vcd_C3_witness :
    decodeUARTLoop uartSigW 104167 7 ⟨0, "1"⟩
        [⟨0, "0"⟩, ⟨104167, "1"⟩, ⟨208334, "0"⟩, ⟨729169, "1"⟩, ⟨833336, "0"⟩, ⟨937503, "1"⟩]
      = uartEvent 0 104167 (uartSpecByte uartSigW 104167 0) ::
          decodeUARTLoop uartSigW 104167 6
            (uartSkip (0 + 104167 * 10) ⟨0, "1"⟩
              [⟨0, "0"⟩, ⟨104167, "1"⟩, ⟨208334, "0"⟩, ⟨729169, "1"⟩, ⟨833336, "0"⟩,
               ⟨937503, "1"⟩]).1
            (uartSkip (0 + 104167 * 10) ⟨0, "1"⟩
              [⟨0, "0"⟩, ⟨104167, "1"⟩, ⟨208334, "0"⟩, ⟨729169, "1"⟩, ⟨833336, "0"⟩,
               ⟨937503, "1"⟩]).2 :=
  (vcd_C3.1 uartSigW 104167 6 ⟨0, "1"⟩ ⟨0, "0"⟩
      [⟨104167, "1"⟩, ⟨208334, "0"⟩, ⟨729169, "1"⟩, ⟨833336, "0"⟩, ⟨937503, "1"⟩]
      rfl rfl).1 (by decide)

/-! ## Association-list lemmas (JS `Map` semantics) -/

theorem assocGet_eq_none {α : Type} {m : List (String × α)} {k : String} :
    assocGet m k = none ↔ ∀ p ∈ m, p.1 ≠ k := by
  unfold assocGet
  rw [Option.map_eq_none', List.find?_eq_none]
  constructor
  · intro h p hp
    simpa using h p hp
  · intro h p hp
    simpa using h p hp

theorem mem_of_assocGet {α : Type} {m : List (String × α)} {k : String} {v : α}
    (h : assocGet m k = some v) : (k, v) ∈ m := by
  unfold assocGet at h
  cases hf : m.find? (fun p => p.1 == k) with
  | none => rw [hf] at h; simp at h
  | some p =>
    rw [hf] at h
    have h2 : p.2 = v := by simpa using h
    have hm := List.mem_of_find?_eq_some hf
    have hp := List.find?_some hf
    have hp1 : p.1 = k := by simpa using hp
    have hpv : p = (k, v) := by
      cases p
      simp only at h2 hp1
      rw [hp1, h2]
    rw [← hpv]
    exact hm

theorem assocGet_of_mem {α : Type} {m : List (String × α)} {k : String} {v : α}
    (hn : (m.map Prod.fst).Nodup) (hm : (k, v) ∈ m) : assocGet m k = some v := by
  induction m with
  | nil => simp at hm
  | cons q rest ih =>
    rw [List.map_cons, List.nodup_cons] at hn
    rcases List.mem_cons.mp hm with rfl | hm'
    · simp [assocGet]
    · have hq : q.1 ≠ k := by
        intro hqk
        exact hn.1 (hqk ▸ (List.mem_map_of_mem Prod.fst hm'))
      rw [assocGet, List.find?_cons_of_neg _ (by simpa using hq)]
      exact ih hn.2 hm'

theorem assoc_unique {α : Type} {m : List (String × α)} {k : String} {a b : α}
    (hn : (m.map Prod.fst).Nodup) (ha : (k, a) ∈ m) (hb : (k, b) ∈ m) : a = b := by
  have h1 := assocGet_of_mem hn ha
  have h2 := assocGet_of_mem hn hb
  rw [h1] at h2
  exact Option.some_injective _ h2

theorem find?_map_set {α : Type} (k : String) (v : α) :
    ∀ (m : List (String × α)), m.any (fun p => p.1 == k) = true →
      (m.map (fun p => if p.1 == k then (k, v) else p)).find? (fun p => p.1 == k)
        = some (k, v) := by
  intro m
  induction m with
  | nil => intro h; simp at h
  | cons q rest ih =>
    intro h
    rw [List.map_cons]
    by_cases hq : (q.1 == k) = true
    · rw [if_pos hq]
      simp
    · rw [List.any_cons] at h
      have hqf : (q.1 == k) = false := by simpa using hq
      rw [hqf, Bool.false_or] at h
      rw [if_neg hq]
      simp only [List.find?, hqf, cond_false]
      exact ih h

theorem find?_map_set_ne {α : Type} (k k' : String) (v : α) (h : k' ≠ k) :
    ∀ m : List (String × α),
      (m.map (fun p => if p.1 == k then (k, v) else p)).find? (fun p => p.1 == k')
        = m.find? (fun p => p.1 == k') := by
  intro m
  induction m with
  | nil => rfl
  | cons q rest ih =>
    rw [List.map_cons]
    by_cases hq : (q.1 == k) = true
    · have hq1 : q.1 = k := by simpa using hq
      have hne : ((k : String) == k') = false := by simp [Ne.symm h]
      have hne2 : (q.1 == k') = false := by simp [hq1, Ne.symm h]
      rw [if_pos hq]
      simp only [List.find?, hne, hne2, cond_false]
      exact ih
    · rw [if_neg hq]
      simp only [List.find?]
      cases hq' : (q.1 == k') with
      | true => simp [hq']
      | false => simp only [hq', cond_false]; exact ih

theorem find?_filter_ne {α : Type} (k k' : String) (h : k' ≠ k) :
    ∀ m : List (String × α),
      ((m.filter (fun p => p.1 != k)).find? (fun p => p.1 == k'))
        = m.find? (fun p => p.1 == k') := by
  intro m
  induction m with
  | nil => rfl
  | cons q rest ih =>
    by_cases hq : (q.1 == k) = true
    · have hq1 : q.1 = k := by simpa using hq
      have hne2 : (q.1 == k') = false := by simp [hq1, Ne.symm h]
      rw [List.filter_cons_of_neg (by simp [hq1])]
      simp only [List.find?, hne2, cond_false]
      exact ih
    · rw [List.filter_cons_of_pos (by simpa using hq)]
      simp only [List.find?]
      cases hq' : (q.1 == k') with
      | true => simp [hq']
      | false => simp only [hq', cond_false]; exact ih

theorem find?_append_none {α : Type} (p : α → Bool) :
    ∀ (l1 l2 : List α), l1.find? p = none → (l1 ++ l2).find? p = l2.find? p := by
  intro l1 l2
  induction l1 with
  | nil => intro _; simp
  | cons a rest ih =>
    intro h
    rw [List.find?_cons] at h
    cases hp : p a with
    | true => rw [hp] at h; simp at h
    | false =>
      rw [hp] at h
      rw [List.cons_append, List.find?_cons, hp]
      exact ih h

theorem find?_append_some {α : Type} (p : α → Bool) :
    ∀ (l1 l2 : List α) (a : α), l1.find? p = some a → (l1 ++ l2).find? p = some a := by
  intro l1 l2 a
  induction l1 with
  | nil => intro h; simp at h
  | cons b rest ih =>
    intro h
    rw [List.find?_cons] at h
    cases hp : p b with
    | true =>
      rw [hp] at h
      rw [List.cons_append, List.find?_cons, hp]
      exact h
    | false =>
      rw [hp] at h
      rw [List.cons_append, List.find?_cons, hp]
      exact ih h

theorem assocGet_set_self {α : Type} (m : List (String × α)) (k : String) (v : α) :
    assocGet (assocSet m k v) k = some v := by
  unfold assocSet
  by_cases h : m.any (fun p => p.1 == k) = true
  · rw [if_pos h]
    unfold assocGet
    rw [find?_map_set k v m h]
    rfl
  · rw [if_neg h]
    unfold assocGet
    have hnone : m.find? (fun p => p.1 == k) = none := by
      rw [List.find?_eq_none]
      intro p hp
      rw [Bool.not_eq_true]
      exact Bool.eq_false_iff.mpr (fun htrue => h (List.any_of_mem hp htrue))
    rw [find?_append_none _ m _ hnone]
    simp [List.find?]

theorem assocGet_set_ne {α : Type} (m : List (String × α)) (k k' : String) (v : α)
    (h : k' ≠ k) : assocGet (assocSet m k v) k' = assocGet m k' := by
  unfold assocSet
  by_cases hany : m.any (fun p => p.1 == k) = true
  · rw [if_pos hany]
    unfold assocGet
    rw [find?_map_set_ne k k' v h m]
  · rw [if_neg hany]
    unfold assocGet
    cases hf : m.find? (fun p => p.1 == k') with
    | some p => rw [find?_append_some _ m [(k, v)] p hf]
    | none =>
      rw [find?_append_none _ m _ hf]
      have hkk : ((k : String) == k') = false := by simp [Ne.symm h]
      simp [List.find?, hkk]

theorem assocGet_delete_self {α : Type} (m : List (String × α)) (k : String) :
    assocGet (assocDelete m k) k = none := by
  rw [assocGet_eq_none]
  intro p hp
  have := List.of_mem_filter hp
  simpa using this

theorem assocGet_delete_ne {α : Type} (m : List (String × α)) (k k' : String)
    (h : k' ≠ k) : assocGet (assocDelete m k) k' = assocGet m k' := by
  unfold assocDelete assocGet
  rw [find?_filter_ne k k' h m]

theorem keysOf_set {α : Type} (m : List (String × α)) (k : String) (v : α) :
    (assocSet m k v).map Prod.fst
      = if m.any (fun p => p.1 == k) = true then m.map Prod.fst
        else m.map Prod.fst ++ [k] := by
  unfold assocSet
  by_cases h : m.any (fun p => p.1 == k) = true
  · rw [if_pos h, if_pos h, List.map_map]
    apply List.map_congr_left
    intro p _
    by_cases hp : p.1 == k
    · simp only [Function.comp, if_pos hp]
      exact (beq_iff_eq.mp hp).symm
    · simp [Function.comp, hp]
  · rw [if_neg h, if_neg h]
    simp

theorem keys_nodup_set {α : Type} (m : List (String × α)) (k : String) (v : α)
    (hn : (m.map Prod.fst).Nodup) : ((assocSet m k v).map Prod.fst).Nodup := by
  rw [keysOf_set]
  by_cases h : m.any (fun p => p.1 == k) = true
  · rw [if_pos h]; exact hn
  · rw [if_neg h]
    have hk : k ∉ m.map Prod.fst := by
      intro hmem
      rcases List.mem_map.mp hmem with ⟨p, hp, hpk⟩
      exact h (List.any_of_mem hp (by simpa using hpk))
    simp [List.nodup_append, hn, hk]

theorem keys_nodup_delete {α : Type} (m : List (String × α)) (k : String)
    (hn : (m.map Prod.fst).Nodup) : ((assocDelete m k).map Prod.fst).Nodup := by
  exact ((List.filter_sublist m).map Prod.fst).nodup hn

theorem mem_assocSet {α : Type} {m : List (String × α)} {k : String} {v : α} {p : String × α}
    (h : p ∈ assocSet m k v) : p ∈ m ∨ p = (k, v) := by
  unfold assocSet at h
  by_cases hany : m.any (fun q => q.1 == k) = true
  · rw [if_pos hany] at h
    rcases List.mem_map.mp h with ⟨q, hq, hqe⟩
    by_cases hqk : q.1 == k
    · rw [if_pos hqk] at hqe; right; exact hqe.symm
    · rw [if_neg hqk] at hqe; left; exact hqe ▸ hq
  · rw [if_neg hany] at h
    rcases List.mem_append.mp h with h' | h'
    · left; exact h'
    · right; simpa using h'

theorem mem_assocDelete {α : Type} {m : List (String × α)} {k : String} {p : String × α}
    (h : p ∈ assocDelete m k) : p ∈ m :=
  List.mem_of_mem_filter h

/-! ## Composite names never re-match the bit pattern -/

theorem natDigitChar_isDigit : ∀ m, m < 10 → (natDigitChar m).isDigit = true := by
  intro m hm
  interval_cases m <;> decide

theorem natDigitsAux_digits : ∀ (fuel n : Nat), n < fuel →
    ∀ c ∈ natDigitsAux fuel n, c.isDigit = true := by
  intro fuel
  induction fuel with
  | zero => intro n hn; omega
  | succ fuel ih =>
    intro n hn c hc
    rw [natDigitsAux] at hc
    by_cases h10 : n < 10
    · rw [if_pos h10] at hc
      rcases List.mem_singleton.mp hc with rfl
      exact natDigitChar_isDigit n h10
    · rw [if_neg h10] at hc
      rcases List.mem_append.mp hc with hc' | hc'
      · have hdiv : n / 10 < fuel := by
          have := Nat.div_lt_self (by omega : 0 < n) (by omega : 1 < 10)
          omega
        exact ih (n / 10) hdiv c hc'
      · rcases List.mem_singleton.mp hc' with rfl
        exact natDigitChar_isDigit (n % 10) (Nat.mod_lt _ (by omega))

theorem natDigits_digits (n : Nat) : ∀ c ∈ natDigits n, c.isDigit = true :=
  natDigitsAux_digits (n + 1) n (Nat.lt_succ_self n)

theorem bitNameMatch_mkComposite (base : String) (inner : List (Nat × VCDSignal)) :
    bitNameMatch (mkComposite base inner).name = none := by
  have hmd : ∀ c ∈ (natDigits (groupMin inner)).reverse, Char.isDigit c = true := by
    intro c hc
    exact natDigits_digits _ c (List.mem_reverse.mp hc)
  have hdata : (mkComposite base inner).name.data
      = base.data ++ '[' :: (natDigits (groupMax inner)
          ++ ':' :: (natDigits (groupMin inner) ++ [']'])) := by
    show (base ++ "[" ++ natToDec (groupMax inner) ++ ":"
        ++ natToDec (groupMin inner) ++ "]").data = _
    simp [String.data_append, natToDec]
  have hrev : (mkComposite base inner).name.data.reverse
      = ']' :: ((natDigits (groupMin inner)).reverse
          ++ ':' :: ((natDigits (groupMax inner)).reverse ++ '[' :: base.data.reverse)) := by
    rw [hdata]
    simp [List.reverse_append]
  rw [bitNameMatch, hrev, bitNameMatchAux, if_pos rfl]
  have htw : ((natDigits (groupMin inner)).reverse
        ++ ':' :: ((natDigits (groupMax inner)).reverse ++ '[' :: base.data.reverse)).takeWhile
          Char.isDigit
      = (natDigits (groupMin inner)).reverse := by
    rw [takeWhile_append_all Char.isDigit _ _ hmd, List.takeWhile_cons]
    simp
  rw [htw, List.drop_left]
  have hne : ¬((':' : Char) = '[' ∧ (natDigits (groupMin inner)).reverse ≠ [] ∧
      ((natDigits (groupMax inner)).reverse ++ '[' :: base.data.reverse) ≠ []) := by
    rintro ⟨hcon, -, -⟩
    exact absurd hcon (by decide)
  exact if_neg hne

/-! ## Sorting lemmas for the composite transition times -/

theorem insertAsc_mem (n : Nat) : ∀ (l : List Nat) (x : Nat),
    x ∈ insertAsc n l ↔ x = n ∨ x ∈ l := by
  intro l
  induction l with
  | nil => intro x; simp [insertAsc]
  | cons m rest ih =>
    intro x
    rw [insertAsc]
    by_cases h : n ≤ m
    · rw [if_pos h]
      simp [List.mem_cons]
    · rw [if_neg h]
      simp only [List.mem_cons, ih]
      tauto

theorem insertAsc_perm (n : Nat) : ∀ l : List Nat, List.Perm (insertAsc n l) (n :: l) := by
  intro l
  induction l with
  | nil => simp [insertAsc]
  | cons m rest ih =>
    rw [insertAsc]
    by_cases h : n ≤ m
    · rw [if_pos h]
    · rw [if_neg h]
      exact List.Perm.trans (List.Perm.cons m ih) (List.Perm.swap n m rest)

theorem insertAsc_sorted (n : Nat) : ∀ l : List Nat,
    l.Sorted (fun a b => a ≤ b) → (insertAsc n l).Sorted (fun a b => a ≤ b) := by
  intro l
  induction l with
  | nil => intro _; simp [insertAsc]
  | cons m rest ih =>
    intro hs
    rw [List.sorted_cons] at hs
    rw [insertAsc]
    by_cases h : n ≤ m
    · rw [if_pos h, List.sorted_cons]
      constructor
      · intro b hb
        rcases List.mem_cons.mp hb with rfl | hb'
        · exact h
        · exact le_trans h (hs.1 b hb')
      · rw [List.sorted_cons]
        exact hs
    · rw [if_neg h, List.sorted_cons]
      constructor
      · intro b hb
        rcases (insertAsc_mem n rest b).mp hb with rfl | hb'
        · omega
        · exact hs.1 b hb'
      · exact ih hs.2

theorem sortAsc_sorted : ∀ l : List Nat, (sortAsc l).Sorted (fun a b => a ≤ b) := by
  intro l
  induction l with
  | nil => simp [sortAsc]
  | cons n rest ih => exact insertAsc_sorted n (sortAsc rest) ih

theorem sortAsc_perm : ∀ l : List Nat, List.Perm (sortAsc l) l := by
  intro l
  induction l with
  | nil => simp [sortAsc]
  | cons n rest ih =>
    exact List.Perm.trans (insertAsc_perm n (sortAsc rest)) (List.Perm.cons n ih)

theorem sortAsc_mem (l : List Nat) (x : Nat) : x ∈ sortAsc l ↔ x ∈ l :=
  (sortAsc_perm l).mem_iff

theorem sortAsc_sorted_lt (l : List Nat) (hn : l.Nodup) :
    (sortAsc l).Sorted (fun a b => a < b) := by
  have hnd : (sortAsc l).Nodup := (sortAsc_perm l).nodup_iff.mpr hn
  have hs := sortAsc_sorted l
  unfold List.Sorted at hs ⊢
  unfold List.Nodup at hnd
  have := List.Pairwise.and hs hnd
  exact this.imp (fun h => lt_of_le_of_ne h.1 h.2)

theorem groupTimes_sorted (inner : List (Nat × VCDSignal)) :
    (groupTimes inner).Sorted (fun a b => a < b) :=
  sortAsc_sorted_lt _ (List.nodup_dedup _)

theorem mem_foldl_append {α β : Type} (f : β → List α) :
    ∀ (l : List β) (init : List α) (x : α),
      (x ∈ l.foldl (fun acc p => acc ++ f p) init) ↔ x ∈ init ∨ ∃ p ∈ l, x ∈ f p := by
  intro l
  induction l with
  | nil => intro init x; simp
  | cons q rest ih =>
    intro init x
    rw [List.foldl_cons, ih]
    simp only [List.mem_append, List.mem_cons]
    constructor
    · rintro ((hx | hx) | ⟨p, hp, hx⟩)
      · exact Or.inl hx
      · exact Or.inr ⟨q, Or.inl rfl, hx⟩
      · exact Or.inr ⟨p, Or.inr hp, hx⟩
    · rintro (hx | ⟨p, rfl | hp, hx⟩)
      · exact Or.inl (Or.inl hx)
      · exact Or.inl (Or.inr hx)
      · exact Or.inr ⟨p, hp, hx⟩

theorem groupTimes_mem (inner : List (Nat × VCDSignal)) (t : Nat) :
    t ∈ groupTimes inner ↔ ∃ p ∈ inner, t ∈ p.2.values.map VCDEntry.time := by
  unfold groupTimes
  rw [sortAsc_mem, List.mem_dedup, mem_foldl_append]
  simp

/-! ## Grouping-pass lemmas -/

theorem bases_groupsAdd (gs : List BitGroup) (b : String) (i : Nat) (s : VCDSignal) :
    (groupsAdd gs b i s).map Prod.fst
      = if gs.any (fun g => g.1 == b) = true then gs.map Prod.fst
        else gs.map Prod.fst ++ [b] := by
  unfold groupsAdd
  by_cases h : gs.any (fun g => g.1 == b) = true
  · rw [if_pos h, if_pos h, List.map_map]
    apply List.map_congr_left
    intro g _
    by_cases hg : (g.1 == b) = true
    · simp only [Function.comp, if_pos hg]
      exact (beq_iff_eq.mp hg).symm
    · simp [Function.comp, hg]
  · rw [if_neg h, if_neg h]
    simp

theorem bases_nodup_groupsAdd (gs : List BitGroup) (b : String) (i : Nat) (s : VCDSignal)
    (hn : (gs.map Prod.fst).Nodup) : ((groupsAdd gs b i s).map Prod.fst).Nodup := by
  rw [bases_groupsAdd]
  by_cases h : gs.any (fun g => g.1 == b) = true
  · rw [if_pos h]; exact hn
  · rw [if_neg h]
    have hb : b ∉ gs.map Prod.fst := by
      intro hmem
      rcases List.mem_map.mp hmem with ⟨g, hg, hgb⟩
      exact h (List.any_of_mem hg (by simpa using hgb))
    simp [List.nodup_append, hn, hb]

theorem bgStep_none (gs : List BitGroup) (p : String × VCDSignal)
    (h : bitNameMatch p.1 = none) : bgStep gs p = gs := by
  unfold bgStep
  rw [h]

theorem bgStep_some (gs : List BitGroup) (p : String × VCDSignal) (bi : String × Nat)
    (h : bitNameMatch p.1 = some bi) :
    bgStep gs p = if p.2.size = 1 then groupsAdd gs bi.1 bi.2 p.2 else gs := by
  unfold bgStep
  rw [h]

theorem bases_nodup_bgStep (gs : List BitGroup) (p : String × VCDSignal)
    (hn : (gs.map Prod.fst).Nodup) : ((bgStep gs p).map Prod.fst).Nodup := by
  rcases hm : bitNameMatch p.1 with - | bi
  · rw [bgStep_none gs p hm]; exact hn
  · rw [bgStep_some gs p bi hm]
    by_cases hs : p.2.size = 1
    · rw [if_pos hs]; exact bases_nodup_groupsAdd gs bi.1 bi.2 p.2 hn
    · rw [if_neg hs]; exact hn

theorem bases_nodup_fold : ∀ (rows : SignalTable) (acc : List BitGroup),
    (acc.map Prod.fst).Nodup → ((rows.foldl bgStep acc).map Prod.fst).Nodup := by
  intro rows
  induction rows with
  | nil => intro acc h; exact h
  | cons r rest ih =>
    intro acc h
    exact ih (bgStep acc r) (bases_nodup_bgStep acc r h)

theorem bases_nodup_buildGroups (tbl : SignalTable) :
    ((buildGroups tbl).map Prod.fst).Nodup :=
  bases_nodup_fold tbl [] (by simp)

theorem group_base_unique {tbl : SignalTable} {g g' : BitGroup}
    (hg : g ∈ buildGroups tbl) (hg' : g' ∈ buildGroups tbl) (hb : g.1 = g'.1) : g = g' :=
  List.inj_on_of_nodup_map (bases_nodup_buildGroups tbl) hg hg' hb

theorem innerKeys_innerSet (inner : List (Nat × VCDSignal)) (i : Nat) (s : VCDSignal) :
    (innerSet inner i s).map Prod.fst
      = if inner.any (fun p => p.1 == i) = true then inner.map Prod.fst
        else inner.map Prod.fst ++ [i] := by
  unfold innerSet
  by_cases h : inner.any (fun p => p.1 == i) = true
  · rw [if_pos h, if_pos h, List.map_map]
    apply List.map_congr_left
    intro q _
    by_cases hq : (q.1 == i) = true
    · simp only [Function.comp, if_pos hq]
      exact (beq_iff_eq.mp hq).symm
    · simp [Function.comp, hq]
  · rw [if_neg h, if_neg h]
    simp

theorem innerKeys_nodup_innerSet (inner : List (Nat × VCDSignal)) (i : Nat) (s : VCDSignal)
    (hn : (inner.map Prod.fst).Nodup) : ((innerSet inner i s).map Prod.fst).Nodup := by
  rw [innerKeys_innerSet]
  by_cases h : inner.any (fun p => p.1 == i) = true
  · rw [if_pos h]; exact hn
  · rw [if_neg h]
    have hb : i ∉ inner.map Prod.fst := by
      intro hmem
      rcases List.mem_map.mp hmem with ⟨q, hq, hqb⟩
      exact h (List.any_of_mem hq (by simpa using hqb))
    simp [List.nodup_append, hn, hb]

theorem mem_innerSet {inner : List (Nat × VCDSignal)} {i : Nat} {s : VCDSignal}
    {q : Nat × VCDSignal} (h : q ∈ innerSet inner i s) : q ∈ inner ∨ q = (i, s) := by
  unfold innerSet at h
  by_cases hany : inner.any (fun p => p.1 == i) = true
  · rw [if_pos hany] at h
    rcases List.mem_map.mp h with ⟨p, hp, hpe⟩
    by_cases hpi : (p.1 == i) = true
    · rw [if_pos hpi] at hpe; right; exact hpe.symm
    · rw [if_neg hpi] at hpe; left; exact hpe ▸ hp
  · rw [if_neg hany] at h
    rcases List.mem_append.mp h with h' | h'
    · left; exact h'
    · right; simpa using h'

theorem mem_groupsAdd {gs : List BitGroup} {b : String} {i : Nat} {s : VCDSignal}
    {g : BitGroup} (h : g ∈ groupsAdd gs b i s) :
    g ∈ gs ∨ (∃ g0 ∈ gs, g0.1 = b ∧ g = (b, innerSet g0.2 i s)) ∨ g = (b, [(i, s)]) := by
  unfold groupsAdd at h
  by_cases hany : gs.any (fun g => g.1 == b) = true
  · rw [if_pos hany] at h
    rcases List.mem_map.mp h with ⟨g0, hg0, hge⟩
    by_cases hgb : (g0.1 == b) = true
    · rw [if_pos hgb] at hge
      exact Or.inr (Or.inl ⟨g0, hg0, beq_iff_eq.mp hgb, hge.symm⟩)
    · rw [if_neg hgb] at hge; left; exact hge ▸ hg0
  · rw [if_neg hany] at h
    rcases List.mem_append.mp h with h' | h'
    · left; exact h'
    · right; right; simpa using h'

theorem innerKeys_nodup_groupsAdd (gs : List BitGroup) (b : String) (i : Nat) (s : VCDSignal)
    (hn : ∀ g ∈ gs, (g.2.map Prod.fst).Nodup) :
    ∀ g ∈ groupsAdd gs b i s, (g.2.map Prod.fst).Nodup := by
  intro g hg
  rcases mem_groupsAdd hg with hg' | ⟨g0, hg0, _, rfl⟩ | rfl
  · exact hn g hg'
  · exact innerKeys_nodup_innerSet g0.2 i s (hn g0 hg0)
  · simp

theorem innerKeys_nodup_fold : ∀ (rows : SignalTable) (acc : List BitGroup),
    (∀ g ∈ acc, (g.2.map Prod.fst).Nodup) →
    ∀ g ∈ rows.foldl bgStep acc, (g.2.map Prod.fst).Nodup := by
  intro rows
  induction rows with
  | nil => intro acc h; exact h
  | cons r rest ih =>
    intro acc h
    apply ih (bgStep acc r)
    intro g hg
    rcases hmr : bitNameMatch r.1 with - | bi
    · rw [bgStep_none acc r hmr] at hg; exact h g hg
    · rw [bgStep_some acc r bi hmr] at hg
      by_cases hs : r.2.size = 1
      · rw [if_pos hs] at hg
        exact innerKeys_nodup_groupsAdd acc bi.1 bi.2 r.2 h g hg
      · rw [if_neg hs] at hg; exact h g hg

theorem innerKeys_nodup_buildGroups (tbl : SignalTable) :
    ∀ g ∈ buildGroups tbl, (g.2.map Prod.fst).Nodup :=
  innerKeys_nodup_fold tbl [] (by simp)

theorem bg_member_inv (P : String → Nat → VCDSignal → Prop) :
    ∀ (rows : SignalTable) (acc : List BitGroup),
      (∀ g ∈ acc, ∀ q ∈ g.2, P g.1 q.1 q.2) →
      (∀ r ∈ rows, ∀ b i, bitNameMatch r.1 = some (b, i) → r.2.size = 1 → P b i r.2) →
      ∀ g ∈ rows.foldl bgStep acc, ∀ q ∈ g.2, P g.1 q.1 q.2 := by
  intro rows
  induction rows with
  | nil => intro acc hacc _; exact hacc
  | cons r rest ih =>
    intro acc hacc hrows
    apply ih (bgStep acc r)
    · intro g hg q hq
      rcases hmr : bitNameMatch r.1 with - | bi
      · rw [bgStep_none acc r hmr] at hg; exact hacc g hg q hq
      · rw [bgStep_some acc r bi hmr] at hg
        by_cases hs : r.2.size = 1
        · rw [if_pos hs] at hg
          rcases mem_groupsAdd hg with hg' | ⟨g0, hg0, hb0, rfl⟩ | rfl
          · exact hacc g hg' q hq
          · rcases mem_innerSet hq with hq' | rfl
            · exact hb0 ▸ hacc g0 hg0 q hq'
            · exact hrows r (List.mem_cons_self r rest) bi.1 bi.2 (by rw [hmr]) hs
          · rcases List.mem_singleton.mp hq with rfl
            exact hrows r (List.mem_cons_self r rest) bi.1 bi.2 (by rw [hmr]) hs
        · rw [if_neg hs] at hg; exact hacc g hg q hq
    · intro r' hr'
      exact hrows r' (List.mem_cons_of_mem r hr')

/-- Some group with base `b` contains the bit index `i`. -/
def hasKey (gs : List BitGroup) (b : String) (i : Nat) : Prop :=
  ∃ g ∈ gs, g.1 = b ∧ i ∈ g.2.map Prod.fst

theorem innerSet_key_mem (inner : List (Nat × VCDSignal)) (i : Nat) (s : VCDSignal) :
    i ∈ (innerSet inner i s).map Prod.fst := by
  rw [innerKeys_innerSet]
  by_cases h : inner.any (fun p => p.1 == i) = true
  · rw [if_pos h]
    rcases List.any_eq_true.mp h with ⟨p, hp, hpi⟩
    have hp1 : p.1 = i := by simpa using hpi
    exact hp1 ▸ List.mem_map_of_mem Prod.fst hp
  · rw [if_neg h]
    simp

theorem innerSet_key_sup (inner : List (Nat × VCDSignal)) (i j : Nat) (s : VCDSignal)
    (h : j ∈ inner.map Prod.fst) : j ∈ (innerSet inner i s).map Prod.fst := by
  rw [innerKeys_innerSet]
  by_cases hany : inner.any (fun p => p.1 == i) = true
  · rw [if_pos hany]; exact h
  · rw [if_neg hany]; exact List.mem_append_left _ h

theorem hasKey_groupsAdd_pres {gs : List BitGroup} {b' : String} {i' : Nat}
    (b : String) (i : Nat) (s : VCDSignal) (h : hasKey gs b' i') :
    hasKey (groupsAdd gs b i s) b' i' := by
  obtain ⟨g0, hg0, hb0, hi0⟩ := h
  unfold groupsAdd
  by_cases hany : gs.any (fun g => g.1 == b) = true
  · rw [if_pos hany]
    by_cases hgb : (g0.1 == b) = true
    · refine ⟨(b, innerSet g0.2 i s), List.mem_map.mpr ⟨g0, hg0, by simp only [if_pos hgb]⟩,
        ?_, innerSet_key_sup g0.2 i i' s hi0⟩
      rw [← (beq_iff_eq.mp hgb)]
      exact hb0
    · exact ⟨g0, List.mem_map.mpr ⟨g0, hg0, by simp only [if_neg hgb]⟩, hb0, hi0⟩
  · rw [if_neg hany]
    exact ⟨g0, List.mem_append_left _ hg0, hb0, hi0⟩

theorem hasKey_groupsAdd_self (gs : List BitGroup) (b : String) (i : Nat) (s : VCDSignal) :
    hasKey (groupsAdd gs b i s) b i := by
  unfold groupsAdd
  by_cases hany : gs.any (fun g => g.1 == b) = true
  · rw [if_pos hany]
    rcases List.any_eq_true.mp hany with ⟨g0, hg0, hgb⟩
    exact ⟨(b, innerSet g0.2 i s), List.mem_map.mpr ⟨g0, hg0, by simp only [if_pos hgb]⟩,
      rfl, innerSet_key_mem g0.2 i s⟩
  · rw [if_neg hany]
    exact ⟨(b, [(i, s)]), List.mem_append_right _ (by simp), rfl, by simp⟩

theorem hasKey_bgStep_pres {gs : List BitGroup} {b' : String} {i' : Nat}
    (r : String × VCDSignal) (h : hasKey gs b' i') : hasKey (bgStep gs r) b' i' := by
  rcases hmr : bitNameMatch r.1 with - | bi
  · rw [bgStep_none gs r hmr]; exact h
  · rw [bgStep_some gs r bi hmr]
    by_cases hs : r.2.size = 1
    · rw [if_pos hs]; exact hasKey_groupsAdd_pres bi.1 bi.2 r.2 h
    · rw [if_neg hs]; exact h

theorem bg_hasKey_fold {b : String} {i : Nat} {k : String} {s : VCDSignal}
    (hm : bitNameMatch k = some (b, i)) (hs : s.size = 1) :
    ∀ (rows : SignalTable) (acc : List BitGroup),
      ((k, s) ∈ rows ∨ hasKey acc b i) → hasKey (rows.foldl bgStep acc) b i := by
  intro rows
  induction rows with
  | nil =>
    intro acc h
    rcases h with h | h
    · simp at h
    · exact h
  | cons r rest ih =>
    intro acc h
    apply ih (bgStep acc r)
    rcases h with h | h
    · rcases List.mem_cons.mp h with rfl | h'
      · right
        rw [bgStep_some acc (k, s) (b, i) hm, if_pos hs]
        exact hasKey_groupsAdd_self acc b i s
      · left; exact h'
    · right; exact hasKey_bgStep_pres r h

theorem bg_hasKey {tbl : SignalTable} {b k : String} {i : Nat} {s : VCDSignal}
    (hmem : (k, s) ∈ tbl) (hm : bitNameMatch k = some (b, i)) (hs : s.size = 1) :
    hasKey (buildGroups tbl) b i :=
  bg_hasKey_fold hm hs tbl [] (Or.inl hmem)

/-! ## Reconstruction second-pass lemmas -/

theorem fdel_none {k : String} : ∀ (l : List (Nat × VCDSignal)) (T : SignalTable),
    assocGet T k = none → assocGet (fdel l T) k = none := by
  intro l
  induction l with
  | nil => intro T h; exact h
  | cons q rest ih =>
    intro T h
    apply ih
    by_cases hq : k = q.2.name
    · rw [hq]; exact assocGet_delete_self T q.2.name
    · rw [assocGet_delete_ne T q.2.name k hq]; exact h

theorem fdel_get_mem {k : String} : ∀ (l : List (Nat × VCDSignal)) (T : SignalTable),
    (∃ p ∈ l, p.2.name = k) → assocGet (fdel l T) k = none := by
  intro l
  induction l with
  | nil => intro T h; simp at h
  | cons q rest ih =>
    intro T h
    rcases h with ⟨p, hp, hpk⟩
    rcases List.mem_cons.mp hp with rfl | hp'
    · apply fdel_none rest
      rw [← hpk]
      exact assocGet_delete_self T p.2.name
    · exact ih _ ⟨p, hp', hpk⟩

theorem fdel_get_not {k : String} : ∀ (l : List (Nat × VCDSignal)) (T : SignalTable),
    (∀ p ∈ l, p.2.name ≠ k) → assocGet (fdel l T) k = assocGet T k := by
  intro l
  induction l with
  | nil => intro T _; rfl
  | cons q rest ih =>
    intro T h
    have hq : k ≠ q.2.name := fun hk => h q (List.mem_cons_self q rest) hk.symm
    rw [fdel, List.foldl_cons]
    rw [show rest.foldl (fun t p => assocDelete t p.2.name) (assocDelete T q.2.name)
        = fdel rest (assocDelete T q.2.name) from rfl]
    rw [ih _ (fun p hp => h p (List.mem_cons_of_mem q hp))]
    exact assocGet_delete_ne T q.2.name k hq

theorem fdel_mem {r : String × VCDSignal} : ∀ (l : List (Nat × VCDSignal)) (T : SignalTable),
    r ∈ fdel l T → r ∈ T := by
  intro l
  induction l with
  | nil => intro T h; exact h
  | cons q rest ih =>
    intro T h
    exact mem_assocDelete (ih _ h)

theorem fdel_keys_nodup : ∀ (l : List (Nat × VCDSignal)) (T : SignalTable),
    (T.map Prod.fst).Nodup → ((fdel l T).map Prod.fst).Nodup := by
  intro l
  induction l with
  | nil => intro T h; exact h
  | cons q rest ih =>
    intro T h
    exact ih _ (keys_nodup_delete T q.2.name h)

theorem pg_small {tbl : SignalTable} {g : BitGroup} (h : ¬ 1 < g.2.length) :
    processGroup tbl g = tbl := if_neg h

theorem pg_get_comp {tbl : SignalTable} {g : BitGroup} (hbig : 1 < g.2.length)
    (hmem : ∀ p ∈ g.2, p.2.name ≠ (mkComposite g.1 g.2).name) :
    assocGet (processGroup tbl g) (mkComposite g.1 g.2).name = some (mkComposite g.1 g.2) := by
  rw [processGroup, if_pos hbig, fdel_get_not g.2 _ hmem]
  exact assocGet_set_self tbl _ _

theorem pg_get_member {tbl : SignalTable} {g : BitGroup} {p : Nat × VCDSignal}
    (hbig : 1 < g.2.length) (hp : p ∈ g.2) :
    assocGet (processGroup tbl g) p.2.name = none := by
  rw [processGroup, if_pos hbig]
  exact fdel_get_mem g.2 _ ⟨p, hp, rfl⟩

theorem pg_get_other {tbl : SignalTable} {g : BitGroup} {k : String}
    (hc : k ≠ (mkComposite g.1 g.2).name) (hm : ∀ p ∈ g.2, p.2.name ≠ k) :
    assocGet (processGroup tbl g) k = assocGet tbl k := by
  by_cases hbig : 1 < g.2.length
  · rw [processGroup, if_pos hbig, fdel_get_not g.2 _ hm]
    exact assocGet_set_ne tbl _ k _ hc
  · rw [pg_small hbig]

theorem pg_mem {tbl : SignalTable} {g : BitGroup} {r : String × VCDSignal}
    (h : r ∈ processGroup tbl g) :
    r ∈ tbl ∨ r = ((mkComposite g.1 g.2).name, mkComposite g.1 g.2) := by
  by_cases hbig : 1 < g.2.length
  · rw [processGroup, if_pos hbig] at h
    exact mem_assocSet (fdel_mem g.2 _ h)
  · rw [pg_small hbig] at h
    exact Or.inl h

theorem pg_keys_nodup {tbl : SignalTable} {g : BitGroup}
    (h : (tbl.map Prod.fst).Nodup) : ((processGroup tbl g).map Prod.fst).Nodup := by
  by_cases hbig : 1 < g.2.length
  · rw [processGroup, if_pos hbig]
    exact fdel_keys_nodup g.2 _ (keys_nodup_set tbl _ _ h)
  · rw [pg_small hbig]
    exact h

/-! ## Fold over groups -/

theorem foldPG_pres : ∀ (gs : List BitGroup) (T : SignalTable) (k : String),
    (∀ g ∈ gs, 1 < g.2.length →
      ((mkComposite g.1 g.2).name ≠ k ∧ ∀ p ∈ g.2, p.2.name ≠ k)) →
    assocGet (gs.foldl processGroup T) k = assocGet T k := by
  intro gs
  induction gs with
  | nil => intro T k _; rfl
  | cons g rest ih =>
    intro T k h
    rw [List.foldl_cons, ih _ k (fun g' hg' => h g' (List.mem_cons_of_mem g hg'))]
    by_cases hbig : 1 < g.2.length
    · have hk := h g (List.mem_cons_self g rest) hbig
      exact pg_get_other (Ne.symm hk.1) hk.2
    · rw [pg_small hbig]

theorem foldPG_none : ∀ (gs : List BitGroup) (T : SignalTable) (k : String),
    assocGet T k = none →
    (∀ g ∈ gs, 1 < g.2.length → (mkComposite g.1 g.2).name ≠ k) →
    assocGet (gs.foldl processGroup T) k = none := by
  intro gs
  induction gs with
  | nil => intro T k h _; exact h
  | cons g rest ih =>
    intro T k h hc
    rw [List.foldl_cons]
    apply ih _ k ?_ (fun g' hg' => hc g' (List.mem_cons_of_mem g hg'))
    by_cases hbig : 1 < g.2.length
    · by_cases hm : ∃ p ∈ g.2, p.2.name = k
      · rw [processGroup, if_pos hbig]
        exact fdel_get_mem g.2 _ hm
      · push_neg at hm
        rw [pg_get_other (Ne.symm (hc g (List.mem_cons_self g rest) hbig)) hm]
        exact h
    · rw [pg_small hbig]
      exact h

theorem foldPG_comp : ∀ (gs : List BitGroup) (T : SignalTable),
    gs.Pairwise (fun g g' => 1 < g.2.length → 1 < g'.2.length →
      (mkComposite g.1 g.2).name ≠ (mkComposite g'.1 g'.2).name) →
    (∀ g ∈ gs, 1 < g.2.length → assocGet T (mkComposite g.1 g.2).name = none) →
    (∀ g ∈ gs, 1 < g.2.length → ∀ p ∈ g.2, bitNameMatch p.2.name ≠ none) →
    ∀ g ∈ gs, 1 < g.2.length →
      assocGet (gs.foldl processGroup T) (mkComposite g.1 g.2).name
        = some (mkComposite g.1 g.2) := by
  intro gs
  induction gs with
  | nil => intro T _ _ _ g hg; simp at hg
  | cons g0 rest ih =>
    intro T hpw hD hB g hg hbig
    rw [List.pairwise_cons] at hpw
    rcases List.mem_cons.mp hg with rfl | hg'
    · rw [List.foldl_cons]
      have hstep : assocGet (processGroup T g) (mkComposite g.1 g.2).name
          = some (mkComposite g.1 g.2) := by
        apply pg_get_comp hbig
        intro p hp hpk
        exact hB g (List.mem_cons_self g rest) hbig p hp
          (hpk ▸ bitNameMatch_mkComposite g.1 g.2)
      rw [foldPG_pres rest _ _ ?_, hstep]
      intro g' hg' hbig'
      constructor
      · exact Ne.symm (hpw.1 g' hg' hbig hbig')
      · intro p hp hpk
        exact hB g' (List.mem_cons_of_mem g hg') hbig' p hp
          (hpk ▸ bitNameMatch_mkComposite g.1 g.2)
    · rw [List.foldl_cons]
      apply ih _ hpw.2 ?_ (fun g' hg'' => hB g' (List.mem_cons_of_mem g0 hg'')) g hg' hbig
      intro g' hg'' hbig'
      by_cases hbig0 : 1 < g0.2.length
      · rw [pg_get_other (Ne.symm (hpw.1 g' hg'' hbig0 hbig')) ?_]
        · exact hD g' (List.mem_cons_of_mem g0 hg'') hbig'
        · intro p hp hpk
          exact hB g0 (List.mem_cons_self g0 rest) hbig0 p hp
            (hpk ▸ bitNameMatch_mkComposite g'.1 g'.2)
      · rw [pg_small hbig0]
        exact hD g' (List.mem_cons_of_mem g0 hg'') hbig'

theorem foldPG_member : ∀ (gs : List BitGroup) (T : SignalTable),
    (∀ g ∈ gs, 1 < g.2.length → ∀ p ∈ g.2, bitNameMatch p.2.name ≠ none) →
    ∀ g ∈ gs, 1 < g.2.length → ∀ p ∈ g.2,
      assocGet (gs.foldl processGroup T) p.2.name = none := by
  intro gs
  induction gs with
  | nil => intro T _ g hg; simp at hg
  | cons g0 rest ih =>
    intro T hB g hg hbig p hp
    rcases List.mem_cons.mp hg with rfl | hg'
    · rw [List.foldl_cons]
      apply foldPG_none rest _ _ (pg_get_member hbig hp)
      intro g' hg' hbig' hck
      exact hB g (List.mem_cons_self g rest) hbig p hp
        (hck ▸ bitNameMatch_mkComposite g'.1 g'.2)
    · rw [List.foldl_cons]
      exact ih _ (fun g' hg'' => hB g' (List.mem_cons_of_mem g0 hg'')) g hg' hbig p hp

theorem foldPG_mem : ∀ (gs : List BitGroup) (T : SignalTable) (r : String × VCDSignal),
    r ∈ gs.foldl processGroup T →
    r ∈ T ∨ ∃ g ∈ gs, 1 < g.2.length ∧ r = ((mkComposite g.1 g.2).name, mkComposite g.1 g.2) := by
  intro gs
  induction gs with
  | nil => intro T r h; exact Or.inl h
  | cons g0 rest ih =>
    intro T r h
    rw [List.foldl_cons] at h
    rcases ih _ r h with h' | ⟨g, hg, hbig, he⟩
    · rcases pg_mem h' with h'' | h''
      · exact Or.inl h''
      · by_cases hbig0 : 1 < g0.2.length
        · exact Or.inr ⟨g0, List.mem_cons_self g0 rest, hbig0, h''⟩
        · rw [pg_small hbig0] at h'
          exact Or.inl h'
    · exact Or.inr ⟨g, List.mem_cons_of_mem g0 hg, hbig, he⟩

theorem foldPG_keys_nodup : ∀ (gs : List BitGroup) (T : SignalTable),
    (T.map Prod.fst).Nodup → ((gs.foldl processGroup T).map Prod.fst).Nodup := by
  intro gs
  induction gs with
  | nil => intro T h; exact h
  | cons g0 rest ih =>
    intro T h
    rw [List.foldl_cons]
    exact ih _ (pg_keys_nodup h)

theorem foldPG_id : ∀ (gs : List BitGroup) (T : SignalTable),
    (∀ g ∈ gs, ¬ 1 < g.2.length) → gs.foldl processGroup T = T := by
  intro gs
  induction gs with
  | nil => intro T _; rfl
  | cons g0 rest ih =>
    intro T h
    rw [List.foldl_cons, pg_small (h g0 (List.mem_cons_self g0 rest))]
    exact ih T (fun g hg => h g (List.mem_cons_of_mem g0 hg))

theorem bg_member_origin (tbl : SignalTable) (H2 : ∀ p ∈ tbl, p.2.name = p.1) :
    ∀ g ∈ buildGroups tbl, ∀ q ∈ g.2,
      (q.2.name, q.2) ∈ tbl ∧ bitNameMatch q.2.name = some (g.1, q.1) ∧ q.2.size = 1 := by
  have h := bg_member_inv
    (fun b i s => (s.name, s) ∈ tbl ∧ bitNameMatch s.name = some (b, i) ∧ s.size = 1) tbl []
    (by simp) ?_
  · exact h
  · intro r hr b i hm hs
    have hname := H2 r hr
    refine ⟨?_, ?_, hs⟩
    · rw [hname]
      exact hr
    · rw [hname]
      exact hm

/-- C7: every group of more than one single-bit trailing-bracket-indexed
signal is replaced by the one composite signal `base[max:min]` — present in
the reconstructed table under that name, with width `max - min + 1`, one
entry per time of the deduplicated ascending union of the members' transition
times, each value built by the most-significant-first point queries with `x`
at gaps — and the members are deleted; singleton groups are left unchanged.
Hypotheses: table keys are unique and each signal's name is its key (the
parse invariants), and no key collides with a synthesized composite name. -/
theorem vcd_C7 (tbl : SignalTable)
    (H1 : (tbl.map Prod.fst).Nodup)
    (H2 : ∀ p ∈ tbl, p.2.name = p.1)
    (H3 : ∀ g ∈ buildGroups tbl, 1 < g.2.length →
      assocGet tbl (mkComposite g.1 g.2).name = none)
    (H5 : (buildGroups tbl).Pairwise (fun g g' => 1 < g.2.length → 1 < g'.2.length →
      (mkComposite g.1 g.2).name ≠ (mkComposite g'.1 g'.2).name)) :
    ∀ g ∈ buildGroups tbl,
      (1 < g.2.length →
        assocGet (vcdReconstruct tbl) (mkComposite g.1 g.2).name = some (mkComposite g.1 g.2)
        ∧ (∀ p ∈ g.2, assocGet (vcdReconstruct tbl) p.2.name = none)
        ∧ ((mkComposite g.1 g.2).values.map VCDEntry.time).Sorted (fun a b => a < b)
        ∧ (∀ t, t ∈ (mkComposite g.1 g.2).values.map VCDEntry.time
            ↔ ∃ p ∈ g.2, t ∈ p.2.values.map VCDEntry.time)
        ∧ (mkComposite g.1 g.2).size = groupMax g.2 - groupMin g.2 + 1
        ∧ (∀ e ∈ (mkComposite g.1 g.2).values,
            e.value = compositeValueAt g.2 (groupMax g.2) (groupMin g.2) e.time))
      ∧ (g.2.length = 1 → ∀ p ∈ g.2, assocGet (vcdReconstruct tbl) p.2.name = some p.2) := by
  intro g hg
  have horigin := bg_member_origin tbl H2
  have hB : ∀ g' ∈ buildGroups tbl, 1 < g'.2.length →
      ∀ p ∈ g'.2, bitNameMatch p.2.name ≠ none := by
    intro g' hg' _ p hp hnone
    rw [(horigin g' hg' p hp).2.1] at hnone
    simp at hnone
  have hmapeq : (mkComposite g.1 g.2).values.map VCDEntry.time = groupTimes g.2 := by
    simp only [mkComposite, List.map_map]
    exact List.map_id (groupTimes g.2)
  constructor
  · intro hbig
    refine ⟨?_, ?_, ?_, ?_, rfl, ?_⟩
    · unfold vcdReconstruct
      exact foldPG_comp (buildGroups tbl) tbl H5 H3 hB g hg hbig
    · intro p hp
      unfold vcdReconstruct
      exact foldPG_member (buildGroups tbl) tbl hB g hg hbig p hp
    · rw [hmapeq]
      exact groupTimes_sorted g.2
    · intro t
      rw [hmapeq]
      exact groupTimes_mem g.2 t
    · intro e he
      rcases List.mem_map.mp he with ⟨t, _, rfl⟩
      rfl
  · intro hone p hp
    have hor := horigin g hg p hp
    have hget : assocGet tbl p.2.name = some p.2 := assocGet_of_mem H1 hor.1
    unfold vcdReconstruct
    rw [foldPG_pres (buildGroups tbl) tbl p.2.name ?_, hget]
    intro g' hg' hbig'
    constructor
    · intro hck
      have hcm := bitNameMatch_mkComposite g'.1 g'.2
      rw [hck, hor.2.1] at hcm
      simp at hcm
    · intro q hq hqk
      have horq := horigin g' hg' q hq
      have hqp : q.2 = p.2 := by
        apply assoc_unique H1 (hqk ▸ horq.1) hor.1
      have h1 := horq.2.1
      rw [hqk, hor.2.1] at h1
      have hpair : (g.1, p.1) = (g'.1, q.1) := Option.some_injective (String × Nat) h1
      have hbase : g.1 = g'.1 := by simpa using congrArg Prod.fst hpair
      have hgg : g = g' := group_base_unique hg hg' hbase
      rw [← hgg] at hbig'
      omega

/-- C7 witness: the `data` group of the concrete table merges to `data[3:1]`
(width 3, gap bit read as `x`). -/
theorem vcd_C7_witness :
    assocGet (vcdReconstruct tblW) (mkComposite "data" [(3, sigA), (1, sigB)]).name
      = some (mkComposite "data" [(3, sigA), (1, sigB)]) :=
  ((vcd_C7 tblW (by decide) (by decide) (by decide) (by decide) gW (by decide)).1
    (by decide)).1

/-- C8 counterexample: reconstruction is not idempotent on every table it can
receive.  `dupTbl` has unique keys and name-equals-key (it is producible by
the parser from two declarations per bit, e.g. `data[3]` and `data [3]`),
yet two distinct signals share each (base, index) pair: the inner map's
last-wins overwrite means only the later one of each pair is deleted, the
shadowed `data[3]` and `data[1]` survive the first pass as mergeable
single-bit signals, and the second pass merges them again. -/
theorem vcd_C8_counterexample :
    (dupTbl.map Prod.fst).Nodup ∧ (∀ p ∈ dupTbl, p.2.name = p.1) ∧
    vcdReconstruct (vcdReconstruct dupTbl) ≠ vcdReconstruct dupTbl := by
  decide

/-- C8 (amended): the vector-reconstruction pass is idempotent on tables in
which at most one signal matches each (base, index) pair — then no
synthesized composite matches the single-bit bracketed-index pattern (its
last bracket contains `:`), every merged group's members are gone, and the
leftover matching signals are exactly the singleton groups, so a second run
changes nothing.  With duplicate (base, index) matches the shadowed signals
survive the first pass and a second pass merges again (see the
counterexample).  Hypotheses: unique keys, name-equals-key, and at most one
signal per (base, index) pair. -/
theorem vcd_C8 (tbl : SignalTable)
    (H1 : (tbl.map Prod.fst).Nodup)
    (H2 : ∀ p ∈ tbl, p.2.name = p.1)
    (H4 : ∀ p ∈ tbl, ∀ q ∈ tbl, p.2.size = 1 → q.2.size = 1 →
      bitNameMatch p.1 ≠ none → bitNameMatch p.1 = bitNameMatch q.1 → p.1 = q.1) :
    vcdReconstruct (vcdReconstruct tbl) = vcdReconstruct tbl := by
  have horigin := bg_member_origin tbl H2
  have hB : ∀ g' ∈ buildGroups tbl, 1 < g'.2.length →
      ∀ p ∈ g'.2, bitNameMatch p.2.name ≠ none := by
    intro g' hg' _ p hp hnone
    rw [(horigin g' hg' p hp).2.1] at hnone
    simp at hnone
  have hout_mem : ∀ r ∈ vcdReconstruct tbl, r ∈ tbl ∨ ∃ g ∈ buildGroups tbl,
      1 < g.2.length ∧ r = ((mkComposite g.1 g.2).name, mkComposite g.1 g.2) :=
    fun r hr => foldPG_mem (buildGroups tbl) tbl r hr
  have H2out : ∀ p ∈ vcdReconstruct tbl, p.2.name = p.1 := by
    intro p hp
    rcases hout_mem p hp with h | ⟨g, _, _, rfl⟩
    · exact H2 p h
    · rfl
  have H1out : ((vcdReconstruct tbl).map Prod.fst).Nodup :=
    foldPG_keys_nodup (buildGroups tbl) tbl H1
  have horiginOut := bg_member_origin (vcdReconstruct tbl) H2out
  have hsmall : ∀ g ∈ buildGroups (vcdReconstruct tbl), ¬ 1 < g.2.length := by
    intro g hg hbig
    have hkeys := innerKeys_nodup_buildGroups (vcdReconstruct tbl) g hg
    obtain ⟨q1, q2, hq1, hq2, hne⟩ : ∃ q1 q2, q1 ∈ g.2 ∧ q2 ∈ g.2 ∧ q1.1 ≠ q2.1 := by
      cases hgl : g.2 with
      | nil => rw [hgl] at hbig; simp at hbig
      | cons a t =>
        cases t with
        | nil => rw [hgl] at hbig; simp at hbig
        | cons b t2 =>
          refine ⟨a, b, by simp, by simp, ?_⟩
          rw [hgl] at hkeys
          simp only [List.map_cons, List.nodup_cons] at hkeys
          intro hab
          exact hkeys.1 (by rw [hab]; exact List.mem_cons_self b.1 _)
    have ho1 := horiginOut g hg q1 hq1
    have ho2 := horiginOut g hg q2 hq2
    have hrow : ∀ q : Nat × VCDSignal, (q.2.name, q.2) ∈ vcdReconstruct tbl →
        bitNameMatch q.2.name = some (g.1, q.1) → (q.2.name, q.2) ∈ tbl := by
      intro q hq hm
      rcases hout_mem _ hq with h | ⟨g', _, _, he⟩
      · exact h
      · exfalso
        have hnm : q.2.name = (mkComposite g'.1 g'.2).name := congrArg Prod.fst he
        rw [hnm, bitNameMatch_mkComposite] at hm
        simp at hm
    have hrow1 := hrow q1 ho1.1 ho1.2.1
    have hrow2 := hrow q2 ho2.1 ho2.2.1
    have hk1 : hasKey (buildGroups tbl) g.1 q1.1 := bg_hasKey hrow1 ho1.2.1 ho1.2.2
    have hk2 : hasKey (buildGroups tbl) g.1 q2.1 := bg_hasKey hrow2 ho2.2.1 ho2.2.2
    obtain ⟨g0, hg0, hb0, hi0⟩ := hk1
    obtain ⟨g0', hg0', hb0', hi0'⟩ := hk2
    have hgeq : g0 = g0' := group_base_unique hg0 hg0' (hb0.trans hb0'.symm)
    subst hgeq
    have hbig0 : 1 < g0.2.length := by
      cases hgl : g0.2 with
      | nil => rw [hgl] at hi0; simp at hi0
      | cons a t =>
        cases t with
        | nil =>
          rw [hgl] at hi0 hi0'
          simp at hi0 hi0'
          exact absurd (hi0.trans hi0'.symm) hne
        | cons b t2 => simp
    rcases List.mem_map.mp hi0 with ⟨q0, hq0, hq0k⟩
    have ho0 := horigin g0 hg0 q0 hq0
    have hmeq : bitNameMatch q1.2.name = bitNameMatch q0.2.name := by
      rw [ho1.2.1, ho0.2.1, hq0k, hb0]
    have hkeyeq : q1.2.name = q0.2.name :=
      H4 (q1.2.name, q1.2) hrow1 (q0.2.name, q0.2) ho0.1 ho1.2.2 ho0.2.2
        (by rw [ho1.2.1]; simp) hmeq
    have hdel : assocGet (vcdReconstruct tbl) q0.2.name = none := by
      unfold vcdReconstruct
      exact foldPG_member (buildGroups tbl) tbl hB g0 hg0 hbig0 q0 hq0
    rw [← hkeyeq] at hdel
    have hsome : assocGet (vcdReconstruct tbl) q1.2.name = some q1.2 :=
      assocGet_of_mem H1out ho1.1
    rw [hsome] at hdel
    simp at hdel
  show (buildGroups (vcdReconstruct tbl)).foldl processGroup (vcdReconstruct tbl)
      = vcdReconstruct tbl
  exact foldPG_id _ _ hsmall

/-- C8 witness: reconstruction applied twice to the concrete table. -/
theorem vcd_C8_witness : vcdReconstruct (vcdReconstruct tblW) = vcdReconstruct tblW :=
  vcd_C8 tblW (by decide) (by decide) (by decide)

end VCD
